import Mathlib

/-!
Verification of `src/civ5-mod/update_md5.py` (the manifest MD5 synchronizer).

The script reads a manifest document, scans it with the regex

  FILE_RE = (<File\s+md5=")([0-9A-Fa-f]{32})("\s+import="[01]">)(.+?)(</File>)

and, for each match, recomputes the MD5 of the referenced file (resolved
against the manifest's directory), rewriting the 32-character hash field
with the uppercase hexadecimal digest.  If any recorded hash differed
(case-insensitively) from the computed one, the reconstructed document is
written back; per-entry log lines and a summary line are printed.

The embedding below models:
  * bytes as `Nat` (masked to 8 bits where packed),
  * the filesystem as a map from relative-path strings (already resolved
    against the fixed manifest directory, i.e. the view `rel ↦ bytes of
    MODINFO.parent / rel`) to a `FileState`,
  * Python `\s` restricted to the six ASCII whitespace characters, and
    `.` as any character other than `'\n'`, as in the source pattern,
  * `re.sub` as a leftmost, non-overlapping scan into pieces (unmatched
    characters and matches), with the replacement callback's `nonlocal`
    counter and `print` calls threaded explicitly in document order.
-/

/-- ASCII whitespace, modelling Python regex `\s` (restricted to the six
ASCII whitespace characters; the manifests at hand are ASCII). -/
def isWs (c : Char) : Bool :=
  decide (c = ' ' ∨ c = '\t' ∨ c = '\n' ∨ c = '\r' ∨ c = Char.ofNat 11 ∨ c = Char.ofNat 12)

/-- The character class `[0-9A-Fa-f]` of `FILE_RE`. -/
def isHexCh (c : Char) : Bool :=
  decide (('0' ≤ c ∧ c ≤ '9') ∨ ('A' ≤ c ∧ c ≤ 'F') ∨ ('a' ≤ c ∧ c ≤ 'f'))

/-- Character-wise upper-casing, modelling Python `str.upper` as applied by
the script (its arguments are ASCII hexadecimal strings). -/
def strUpper (s : String) : String := String.mk (s.data.map Char.toUpper)

/-! ### MD5 (`hashlib.md5(...).hexdigest()`)

A direct functional implementation of MD5 over byte lists, used to model
`md5_of` (lines 12-13 of the script): digest of the raw bytes, rendered as
lowercase hex by `hexdigest` and upper-cased by `.upper()`. -/

/-- The 64 MD5 round constants `K[i] = floor(abs(sin(i+1)) * 2^32)`. -/
def md5K : List Nat :=
  [0xd76aa478, 0xe8c7b756, 0x242070db, 0xc1bdceee,
   0xf57c0faf, 0x4787c62a, 0xa8304613, 0xfd469501,
   0x698098d8, 0x8b44f7af, 0xffff5bb1, 0x895cd7be,
   0x6b901122, 0xfd987193, 0xa679438e, 0x49b40821,
   0xf61e2562, 0xc040b340, 0x265e5a51, 0xe9b6c7aa,
   0xd62f105d, 0x02441453, 0xd8a1e681, 0xe7d3fbc8,
   0x21e1cde6, 0xc33707d6, 0xf4d50d87, 0x455a14ed,
   0xa9e3e905, 0xfcefa3f8, 0x676f02d9, 0x8d2a4c8a,
   0xfffa3942, 0x8771f681, 0x6d9d6122, 0xfde5380c,
   0xa4beea44, 0x4bdecfa9, 0xf6bb4b60, 0xbebfbc70,
   0x289b7ec6, 0xeaa127fa, 0xd4ef3085, 0x04881d05,
   0xd9d4d039, 0xe6db99e5, 0x1fa27cf8, 0xc4ac5665,
   0xf4292244, 0x432aff97, 0xab9423a7, 0xfc93a039,
   0x655b59c3, 0x8f0ccc92, 0xffeff47d, 0x85845dd1,
   0x6fa87e4f, 0xfe2ce6e0, 0xa3014314, 0x4e0811a1,
   0xf7537e82, 0xbd3af235, 0x2ad7d2bb, 0xeb86d391]

/-- The 64 MD5 per-round left-rotation amounts. -/
def md5S : List Nat :=
  [7, 12, 17, 22, 7, 12, 17, 22, 7, 12, 17, 22, 7, 12, 17, 22,
   5, 9, 14, 20, 5, 9, 14, 20, 5, 9, 14, 20, 5, 9, 14, 20,
   4, 11, 16, 23, 4, 11, 16, 23, 4, 11, 16, 23, 4, 11, 16, 23,
   6, 10, 15, 21, 6, 10, 15, 21, 6, 10, 15, 21, 6, 10, 15, 21]

/-- 32-bit left rotation on `Nat` (arguments below 2^32). -/
def rotl32 (x s : Nat) : Nat :=
  (x % 2 ^ (32 - s)) * 2 ^ s + x / 2 ^ (32 - s)

/-- The MD5 nonlinear round functions F, G, H, I selected by round index. -/
def md5F (i b c d : Nat) : Nat :=
  if i < 16 then (b &&& c) ||| ((b ^^^ 0xffffffff) &&& d)
  else if i < 32 then (d &&& b) ||| ((d ^^^ 0xffffffff) &&& c)
  else if i < 48 then b ^^^ c ^^^ d
  else c ^^^ (b ||| (d ^^^ 0xffffffff))

/-- The MD5 message-word schedule. -/
def md5G (i : Nat) : Nat :=
  if i < 16 then i
  else if i < 32 then (5 * i + 1) % 16
  else if i < 48 then (3 * i + 5) % 16
  else (7 * i) % 16

/-- Pack four bytes, little-endian, into one 32-bit word. -/
def word4 (b0 b1 b2 b3 : Nat) : Nat :=
  b0 % 256 + 256 * (b1 % 256) + 65536 * (b2 % 256) + 16777216 * (b3 % 256)

/-- A 64-byte chunk as sixteen little-endian 32-bit words. -/
def toWordsLE : List Nat → List Nat
  | b0 :: b1 :: b2 :: b3 :: rest => word4 b0 b1 b2 b3 :: toWordsLE rest
  | _ => []

/-- One MD5 round on the running state `(a, b, c, d)`. -/
def md5Round (M : List Nat) (st : Nat × Nat × Nat × Nat) (i : Nat) :
    Nat × Nat × Nat × Nat :=
  let a := st.1
  let b := st.2.1
  let c := st.2.2.1
  let d := st.2.2.2
  let f := (md5F i b c d + a + md5K.getD i 0 + M.getD (md5G i) 0) % 4294967296
  (d, (b + rotl32 f (md5S.getD i 0)) % 4294967296, b, c)

/-- The MD5 initialization vector. -/
def md5Init : Nat × Nat × Nat × Nat :=
  (0x67452301, 0xefcdab89, 0x98badcfe, 0x10325476)

/-- Process one 64-byte chunk: 64 rounds, then add into the state. -/
def md5Chunk (st : Nat × Nat × Nat × Nat) (chunk : List Nat) :
    Nat × Nat × Nat × Nat :=
  let M := toWordsLE chunk
  let r := (List.range 64).foldl (md5Round M) st
  ((st.1 + r.1) % 4294967296, (st.2.1 + r.2.1) % 4294967296,
   (st.2.2.1 + r.2.2.1) % 4294967296, (st.2.2.2 + r.2.2.2) % 4294967296)

/-- Split a byte list into 64-byte chunks. -/
def chunksOf64 (l : List Nat) : List (List Nat) :=
  if h : l = [] then []
  else l.take 64 :: chunksOf64 (l.drop 64)
termination_by l.length
decreasing_by
  simp only [List.length_drop]
  have : l.length ≠ 0 := fun hz => h (List.eq_nil_of_length_eq_zero hz)
  omega

/-- MD5 padding: `0x80`, zeros to 56 mod 64, then the 64-bit little-endian
bit length of the message. -/
def md5Pad (msg : List Nat) : List Nat :=
  let z := (119 - msg.length % 64) % 64
  let bl := msg.length * 8 % 2 ^ 64
  msg ++ 0x80 :: List.replicate z 0 ++
    [bl % 256, bl / 2 ^ 8 % 256, bl / 2 ^ 16 % 256, bl / 2 ^ 24 % 256,
     bl / 2 ^ 32 % 256, bl / 2 ^ 40 % 256, bl / 2 ^ 48 % 256, bl / 2 ^ 56 % 256]

/-- A 32-bit word as four bytes, little-endian. -/
def wordBytesLE (w : Nat) : List Nat :=
  [w % 256, w / 256 % 256, w / 65536 % 256, w / 16777216 % 256]

/-- The 16-byte MD5 digest of a byte list. -/
def md5Digest (msg : List Nat) : List Nat :=
  let st := (chunksOf64 (md5Pad msg)).foldl md5Chunk md5Init
  wordBytesLE st.1 ++ wordBytesLE st.2.1 ++ wordBytesLE st.2.2.1 ++ wordBytesLE st.2.2.2

/-- A lowercase hexadecimal digit. -/
def hexDig (k : Nat) : Char :=
  ("0123456789abcdef".data).getD k '0'

/-- One byte as two lowercase hexadecimal characters. -/
def byteHex (b : Nat) : List Char :=
  [hexDig (b / 16 % 16), hexDig (b % 16)]

/-- `hashlib.md5(bytes).hexdigest()`: the digest as 32 lowercase hex chars. -/
def md5Hex (msg : List Nat) : String :=
  String.mk ((md5Digest msg).map byteHex).flatten

/-- `md5_of` (lines 12-13): `hashlib.md5(path.read_bytes()).hexdigest().upper()`,
as a function of the file's byte content. -/
def md5Upper (msg : List Nat) : String :=
  strUpper (md5Hex msg)

/-! ### The pattern `FILE_RE` (line 9)

`FILE_RE = (<File\s+md5=")([0-9A-Fa-f]{32})("\s+import="[01]">)(.+?)(</File>)`

An anchored matcher `matchAt` over `List Char` implements matching this
pattern at the start of a suffix, deterministically: the backtracking of
the Python engine collapses because every `\s+` is followed by a
non-whitespace literal and `(.+?)` is lazy with the pattern ending right
after the closing literal, so the first (shortest) success is the match. -/

/-- The literal `<File` opening group 1. -/
def fileLit : List Char := "<File".data

/-- The literal `md5="` closing group 1. -/
def md5Lit : List Char := "md5=\"".data

/-- The literal `import="` inside group 3. -/
def importLit : List Char := "import=\"".data

/-- The literal `">` closing group 3. -/
def quoteGt : List Char := "\">".data

/-- The literal `</File>` (group 5). -/
def closeLit : List Char := "</File>".data

/-- `startsWithL pat l`: `l` begins with `pat`. -/
def startsWithL : List Char → List Char → Bool
  | [], _ => true
  | _ :: _, [] => false
  | p :: ps, c :: cs => p = c && startsWithL ps cs

/-- Match a literal at the head of the input, returning the rest. -/
def matchLit : List Char → List Char → Option (List Char)
  | [], t => some t
  | _ :: _, [] => none
  | p :: ps, c :: cs => if p = c then matchLit ps cs else none

/-- Split off the maximal (possibly empty) whitespace run. -/
def takeWs : List Char → List Char × List Char
  | [] => ([], [])
  | c :: cs =>
    if isWs c then
      let p := takeWs cs
      (c :: p.1, p.2)
    else ([], c :: cs)

/-- `\s+`: at least one whitespace character, maximal run. -/
def takeSpaces1 (t : List Char) : Option (List Char × List Char) :=
  let p := takeWs t
  if p.1.isEmpty then none else some p

/-- `[0-9A-Fa-f]{n}`: exactly `n` hexadecimal characters. -/
def takeHex : Nat → List Char → Option (List Char × List Char)
  | 0, t => some ([], t)
  | _ + 1, [] => none
  | n + 1, c :: cs =>
    if isHexCh c then (takeHex n cs).map (fun p => (c :: p.1, p.2)) else none

/-- `[01]`: the import digit. -/
def takeImportDigit : List Char → Option (Char × List Char)
  | [] => none
  | c :: cs => if c = '0' ∨ c = '1' then some (c, cs) else none

/-- The lazy continuation of `(.+?)(</File>)` after at least one character
was consumed: stop at the first `</File>`, refuse `'\n'` (Python `.` does
not match a newline).  Returns the remaining path characters and the text
after the closing literal. -/
def pathClose (t : List Char) : Option (List Char × List Char) :=
  if startsWithL closeLit t then some ([], t.drop 7)
  else
    match t with
    | [] => none
    | c :: cs =>
      if c = '\n' then none
      else (pathClose cs).map (fun p => (c :: p.1, p.2))
termination_by t.length
decreasing_by simp +arith

/-- `(.+?)(</File>)`: a nonempty, newline-free path, lazily up to the first
`</File>`. -/
def pathScan (t : List Char) : Option (List Char × List Char) :=
  match t with
  | [] => none
  | c :: cs =>
    if c = '\n' then none
    else (pathClose cs).map (fun p => (c :: p.1, p.2))

/-- One match of `FILE_RE`: the five captured groups.  `g1` is
`<File\s+md5="`, `g2` the 32 hex characters, `g3` is `"\s+import="[01]">`,
`g4` the path, `g5` the literal `</File>`. -/
structure FileMatch where
  g1 : List Char
  g2 : List Char
  g3 : List Char
  g4 : List Char
  g5 : List Char
  deriving DecidableEq, Repr

/-- `m.group(0)`: the whole matched region, the concatenation of the five
groups (the pattern is exhaustively captured). -/
def mStr (m : FileMatch) : List Char :=
  m.g1 ++ m.g2 ++ m.g3 ++ m.g4 ++ m.g5

/-- Match `FILE_RE` anchored at the head of `t`; on success return the
groups and the text after the match. -/
def matchAt (t : List Char) : Option (FileMatch × List Char) := do
  let t1 ← matchLit fileLit t
  let (sp1, t2) ← takeSpaces1 t1
  let t3 ← matchLit md5Lit t2
  let (h, t4) ← takeHex 32 t3
  let t5 ← matchLit ['"'] t4
  let (sp2, t6) ← takeSpaces1 t5
  let t7 ← matchLit importLit t6
  let (d, t8) ← takeImportDigit t7
  let t9 ← matchLit quoteGt t8
  let (p, t10) ← pathScan t9
  return (⟨fileLit ++ sp1 ++ md5Lit, h, '"' :: (sp2 ++ importLit ++ [d, '"', '>']), p, closeLit⟩, t10)

/-! Length facts about the anchored matcher, needed to justify the
termination of the document scan below. -/

/-- A successful literal match consumes exactly the literal. -/
def matchLit_len : ∀ (lit t r : List Char), matchLit lit t = some r →
    t.length = lit.length + r.length := by
  intro lit
  induction lit with
  | nil =>
    intro t r h
    simp only [matchLit, Option.some.injEq] at h
    simp [h]
  | cons p ps ih =>
    intro t r h
    cases t with
    | nil => simp [matchLit] at h
    | cons c cs =>
      simp only [matchLit] at h
      split at h
      · have := ih cs r h
        simp only [List.length_cons]
        omega
      · exact absurd h (by simp)

/-- `takeWs` splits the input. -/
def takeWs_split : ∀ t : List Char, (takeWs t).1 ++ (takeWs t).2 = t := by
  intro t
  induction t with
  | nil => simp [takeWs]
  | cons c cs ih =>
    simp only [takeWs]
    split
    · simpa using ih
    · simp

/-- `takeSpaces1` never lengthens the input. -/
def takeSpaces1_len : ∀ (t sp r : List Char), takeSpaces1 t = some (sp, r) →
    sp ++ r = t := by
  intro t sp r h
  simp only [takeSpaces1] at h
  split at h
  · exact absurd h (by simp)
  · simp only [Option.some.injEq] at h
    rw [show sp = (takeWs t).1 by rw [h], show r = (takeWs t).2 by rw [h]]
    exact takeWs_split t

/-- `takeHex` consumes exactly `n` characters. -/
def takeHex_len : ∀ (n : Nat) (t h r : List Char), takeHex n t = some (h, r) →
    h ++ r = t ∧ h.length = n := by
  intro n
  induction n with
  | zero =>
    intro t h r hp
    simp only [takeHex, Option.some.injEq, Prod.mk.injEq] at hp
    refine ⟨?_, ?_⟩
    · rw [← hp.1, ← hp.2]; simp
    · rw [← hp.1]; rfl
  | succ k ih =>
    intro t h r hp
    cases t with
    | nil => simp [takeHex] at hp
    | cons c cs =>
      simp only [takeHex] at hp
      split at hp
      · cases hk : takeHex k cs with
        | none =>
          rw [hk] at hp
          simp at hp
        | some p =>
          rw [hk] at hp
          simp only [Option.map_some', Option.some.injEq, Prod.mk.injEq] at hp
          obtain ⟨rfl, rfl⟩ := hp
          obtain ⟨h1, h2⟩ := ih cs p.1 p.2 (by rw [hk])
          constructor
          · simp [h1]
          · simp [h2]
      · exact absurd hp (by simp)

/-- A true `startsWithL` exhibits the prefix. -/
def startsWithL_append : ∀ (pat l : List Char), startsWithL pat l = true →
    l = pat ++ l.drop pat.length := by
  intro pat
  induction pat with
  | nil => intro l _; simp
  | cons p ps ih =>
    intro l h
    cases l with
    | nil => simp [startsWithL] at h
    | cons c cs =>
      simp only [startsWithL, Bool.and_eq_true, decide_eq_true_eq] at h
      obtain ⟨rfl, h2⟩ := h
      simpa using ih cs h2

/-- A successful `pathClose` splits the input as path, closing literal,
rest. -/
def pathClose_split : ∀ (t p r : List Char), pathClose t = some (p, r) →
    p ++ closeLit ++ r = t := by
  intro t
  induction t with
  | nil =>
    intro p r h
    rw [pathClose] at h
    rw [show startsWithL closeLit [] = false by decide] at h
    simp at h
  | cons c cs ih =>
    intro p r h
    rw [pathClose] at h
    split at h
    case isTrue hs =>
      simp only [Option.some.injEq, Prod.mk.injEq] at h
      obtain ⟨rfl, rfl⟩ := h
      simpa using (startsWithL_append closeLit (c :: cs) hs).symm
    case isFalse =>
      split at h
      · exact absurd h (by simp)
      · cases hk : pathClose cs with
        | none => rw [hk] at h; simp at h
        | some pp =>
          rw [hk] at h
          simp only [Option.map_some', Option.some.injEq, Prod.mk.injEq] at h
          obtain ⟨rfl, rfl⟩ := h
          have := ih pp.1 pp.2 (by rw [hk])
          simp only [List.cons_append, List.append_assoc] at this ⊢
          rw [this]

/-- A successful `pathScan` splits the input. -/
def pathScan_split : ∀ (t p r : List Char), pathScan t = some (p, r) →
    p ++ closeLit ++ r = t := by
  intro t p r h
  cases t with
  | nil => simp [pathScan] at h
  | cons c cs =>
    simp only [pathScan] at h
    split at h
    · exact absurd h (by simp)
    · cases hk : pathClose cs with
      | none => rw [hk] at h; simp at h
      | some pp =>
        rw [hk] at h
        simp only [Option.map_some', Option.some.injEq, Prod.mk.injEq] at h
        obtain ⟨rfl, rfl⟩ := h
        have := pathClose_split cs pp.1 pp.2 (by rw [hk])
        simp only [List.cons_append, List.append_assoc] at this ⊢
        rw [this]

/-- `takeImportDigit` consumes one character. -/
def takeImportDigit_len : ∀ (t : List Char) (d : Char) (r : List Char),
    takeImportDigit t = some (d, r) → t = d :: r := by
  intro t d r h
  cases t with
  | nil => simp [takeImportDigit] at h
  | cons c cs =>
    simp only [takeImportDigit] at h
    split at h
    · simp only [Option.some.injEq, Prod.mk.injEq] at h
      simp [h.1, h.2]
    · exact absurd h (by simp)

/-- Decomposition of a successful anchored match into its stages. -/
def matchAt_stages : ∀ (t : List Char) (m : FileMatch) (r : List Char),
    matchAt t = some (m, r) →
    ∃ t1 sp1 t2 t3 h t4 t5 sp2 t6 t7 d t8 t9 p t10,
      matchLit fileLit t = some t1 ∧
      takeSpaces1 t1 = some (sp1, t2) ∧
      matchLit md5Lit t2 = some t3 ∧
      takeHex 32 t3 = some (h, t4) ∧
      matchLit ['"'] t4 = some t5 ∧
      takeSpaces1 t5 = some (sp2, t6) ∧
      matchLit importLit t6 = some t7 ∧
      takeImportDigit t7 = some (d, t8) ∧
      matchLit quoteGt t8 = some t9 ∧
      pathScan t9 = some (p, t10) ∧
      m = ⟨fileLit ++ sp1 ++ md5Lit, h, '"' :: (sp2 ++ importLit ++ [d, '"', '>']), p, closeLit⟩ ∧
      r = t10 := by
  intro t m r hm
  simp only [matchAt, bind, Option.bind_eq_some, Option.pure_def,
    Option.some.injEq] at hm
  obtain ⟨t1, h1, ⟨sp1, t2⟩, h2, t3, h3, ⟨h, t4⟩, h4, t5, h5, ⟨sp2, t6⟩, h6,
    t7, h7, ⟨d, t8⟩, h8, t9, h9, ⟨p, t10⟩, h10, hfin⟩ := hm
  simp only [Prod.mk.injEq] at hfin
  exact ⟨t1, sp1, t2, t3, h, t4, t5, sp2, t6, t7, d, t8, t9, p, t10,
    h1, h2, h3, h4, h5, h6, h7, h8, h9, h10, hfin.1.symm, hfin.2.symm⟩

/-- A successful anchored match strictly consumes input (the scan below
terminates). -/
def matchAt_shrink : ∀ (t : List Char) (m : FileMatch) (r : List Char),
    matchAt t = some (m, r) → r.length < t.length := by
  intro t m r hm
  obtain ⟨t1, sp1, t2, t3, h, t4, t5, sp2, t6, t7, d, t8, t9, p, t10,
    h1, h2, h3, h4, h5, h6, h7, h8, h9, h10, hmm, hr⟩ := matchAt_stages t m r hm
  have e1 := matchLit_len fileLit t t1 h1
  have e2 := takeSpaces1_len t1 sp1 t2 h2
  have e3 := matchLit_len md5Lit t2 t3 h3
  have e4 := takeHex_len 32 t3 h t4 h4
  have e5 := matchLit_len ['"'] t4 t5 h5
  have e6 := takeSpaces1_len t5 sp2 t6 h6
  have e7 := matchLit_len importLit t6 t7 h7
  have e8 := takeImportDigit_len t7 d t8 h8
  have e9 := matchLit_len quoteGt t8 t9 h9
  have e10 := pathScan_split t9 p t10 h10
  have l2 : sp1.length + t2.length = t1.length := by
    rw [← e2]; simp
  have l4 : h.length + t4.length = t3.length := by
    rw [← e4.1]; simp
  have l6 : sp2.length + t6.length = t5.length := by
    rw [← e6]; simp
  have l8 : t7.length = t8.length + 1 := by rw [e8]; simp
  have l10 : p.length + closeLit.length + t10.length = t9.length := by
    rw [← e10]; simp [Nat.add_assoc]
  have hf : fileLit.length = 5 := by decide
  subst hr
  omega

/-! ### The document scan (`FILE_RE.sub(replace_match, text)`, line 34)

`re.sub` decomposes the document into the leftmost non-overlapping
matches of the pattern and the unmatched characters between them, then
concatenates unmatched text verbatim with the replacement of each match,
invoking the replacement callback on the matches in document order.
`scanPieces` computes that decomposition. -/

/-- One piece of the scanned document: an unmatched character, or one
match of `FILE_RE`. -/
inductive Piece where
  | raw : Char → Piece
  | entry : FileMatch → Piece
  deriving DecidableEq, Repr

/-- Leftmost, non-overlapping decomposition of the text into unmatched
characters and matches, as performed by `re.sub`. -/
def scanPieces : List Char → List Piece
  | [] => []
  | c :: rest =>
    match hm : matchAt (c :: rest) with
    | some (m, r) => .entry m :: scanPieces r
    | none => .raw c :: scanPieces rest
termination_by l => l.length
decreasing_by
  · exact matchAt_shrink _ m r hm
  · simp

/-- The text of one piece (for a match, `m.group(0)`). -/
def pieceText : Piece → List Char
  | .raw c => [c]
  | .entry m => mStr m

/-- Reassemble a piece list into text. -/
def renderP (ps : List Piece) : List Char :=
  (ps.map pieceText).flatten

/-! ### Filesystem model and `replace_match` (lines 20-32)

The filesystem is the resolved view `rel ↦ MODINFO.parent / rel` of the
manifest's directory: a map from the `relative_path` strings occurring in
entries to the state of the referenced file.  `missing` models
`file_path.exists()` returning `False`; `unreadable` models a file that
exists but whose `read_bytes()` raises (permission error, directory,
...); `readable b` gives the raw bytes. -/

/-- State of one referenced file in the resolved directory view. -/
inductive FileState where
  | missing : FileState
  | readable : List Nat → FileState
  | unreadable : FileState
  deriving DecidableEq, Repr

/-- `file_path.exists()` (line 24). -/
def FileState.found : FileState → Bool
  | .missing => false
  | _ => true

/-- `replace_match(m)` (lines 20-32): for a missing file print the MISSING
line and return `m.group(0)` unchanged; otherwise compute the new hash
(`none` models `read_bytes()` raising, which aborts the whole run), count
and log a difference of upper-cased old vs new, and return the region
rebuilt from the groups with the new uppercase hash.  The `nonlocal
updated` counter and the printed lines are threaded explicitly. -/
def replaceMatch (files : String → FileState) (m : FileMatch) (updated : Nat)
    (out : List String) : Option (List Char × Nat × List String) :=
  let relPath := String.mk m.g4
  match files relPath with
  | .missing => some (mStr m, updated, out ++ ["  MISSING: " ++ relPath])
  | .unreadable => none
  | .readable bytes =>
    let newMd5 := md5Upper bytes
    let oldMd5 := strUpper (String.mk m.g2)
    let next :=
      if oldMd5 ≠ newMd5 then
        (updated + 1, out ++ ["  " ++ relPath ++ ": " ++ oldMd5 ++ " -> " ++ newMd5])
      else (updated, out)
    some (m.g1 ++ newMd5.data ++ m.g3 ++ m.g4 ++ m.g5, next.1, next.2)

/-- Result of the substitution pass: fatal abort (an exception escaped
`replace_match`; the lines printed so far are kept, the partial text is
discarded) or the rebuilt text with the final counter and lines. -/
inductive SubOutcome where
  | fatal : List String → SubOutcome
  | done : List Char → Nat → List String → SubOutcome
  deriving DecidableEq, Repr

/-- The substitution pass over the scanned pieces, in document order:
unmatched characters are copied verbatim, matches go through
`replace_match`. -/
def processPieces (files : String → FileState) :
    List Piece → Nat → List String → SubOutcome
  | [], u, out => .done [] u out
  | .raw c :: ps, u, out =>
    match processPieces files ps u out with
    | .fatal o => .fatal o
    | .done t u2 o => .done (c :: t) u2 o
  | .entry m :: ps, u, out =>
    match replaceMatch files m u out with
    | none => .fatal out
    | some (t, u1, o1) =>
      match processPieces files ps u1 o1 with
      | .fatal o => .fatal o
      | .done t2 u2 o2 => .done (t ++ t2) u2 o2

/-! ### `main` (lines 16-40) -/

/-- The world `main` acts on: the manifest file's content (`none` when
`MODINFO.read_text` raises) and the resolved directory view. -/
structure World where
  manifest : Option String
  files : String → FileState

/-- Observable outcome of one run: whether it aborted with an error,
the world afterwards, everything printed to stdout in order, whether
`write_text` was called, and the final value of `updated` (0 on abort). -/
structure Outcome where
  err : Bool
  world : World
  stdout : List String
  wrote : Bool
  updated : Nat

/-- `main()` (lines 16-40): read the manifest (abort if unreadable), run
the substitution pass (abort if it raises; lines printed so far stay on
stdout and nothing is written), then write the new text back iff the
counter is nonzero (`if updated:`), and print the summary line. -/
def mainRun (w : World) : Outcome :=
  match w.manifest with
  | none => ⟨true, w, [], false, 0⟩
  | some text =>
    match processPieces w.files (scanPieces text.data) 0 [] with
    | .fatal out => ⟨true, w, out, false, 0⟩
    | .done newText updated out =>
      if updated ≠ 0 then
        ⟨false, ⟨some (String.mk newText), w.files⟩,
         out ++ ["Updated " ++ toString updated ++ " hash(es)."], true, updated⟩
      else
        ⟨false, w, out ++ ["All hashes up to date."], false, 0⟩

/-! ### Derived per-piece views used by the theorems -/

/-- The piece as it appears in the rebuilt document: for an entry whose
file is readable, the hash group replaced by the uppercase digest;
otherwise unchanged. -/
def mapPiece (files : String → FileState) : Piece → Piece
  | .raw c => .raw c
  | .entry m =>
    match files (String.mk m.g4) with
    | .readable b => .entry ⟨m.g1, (md5Upper b).data, m.g3, m.g4, m.g5⟩
    | _ => .entry m

/-- `mapPiece` over a list. -/
def mapPieces (files : String → FileState) (ps : List Piece) : List Piece :=
  ps.map (mapPiece files)

/-- The log line a piece contributes, if any. -/
def lineOf (files : String → FileState) : Piece → Option String
  | .raw _ => none
  | .entry m =>
    match files (String.mk m.g4) with
    | .missing => some ("  MISSING: " ++ String.mk m.g4)
    | .unreadable => none
    | .readable b =>
      if strUpper (String.mk m.g2) ≠ md5Upper b then
        some ("  " ++ String.mk m.g4 ++ ": " ++ strUpper (String.mk m.g2) ++
          " -> " ++ md5Upper b)
      else none

/-- All log lines of a piece list, in order. -/
def linesOf (files : String → FileState) (ps : List Piece) : List String :=
  ps.filterMap (lineOf files)

/-- Whether a piece increments the `updated` counter. -/
def isUpd (files : String → FileState) : Piece → Bool
  | .raw _ => false
  | .entry m =>
    match files (String.mk m.g4) with
    | .readable b => decide (strUpper (String.mk m.g2) ≠ md5Upper b)
    | _ => false

/-- Number of counter increments contributed by a piece list. -/
def updCount (files : String → FileState) (ps : List Piece) : Nat :=
  ps.countP (isUpd files)

/-! ### Shape of a match, and the simulation relations for re-scanning -/

/-- Structure of the groups produced by a successful `FILE_RE` match:
`g1 = <File\s+md5="`, `g2` exactly 32 hex characters, `g3 = "\s+import="[01]">`,
`g4` a nonempty newline-free path containing no premature `</File>`,
`g5 = </File>`. -/
structure WF (m : FileMatch) : Prop where
  g1s : ∃ sp, sp ≠ [] ∧ (∀ c ∈ sp, isWs c = true) ∧ m.g1 = fileLit ++ sp ++ md5Lit
  g2len : m.g2.length = 32
  g2hex : ∀ c ∈ m.g2, isHexCh c = true
  g3s : ∃ sp d, sp ≠ [] ∧ (∀ c ∈ sp, isWs c = true) ∧ (d = '0' ∨ d = '1') ∧
    m.g3 = '"' :: (sp ++ importLit ++ [d, '"', '>'])
  g4ne : m.g4 ≠ []
  g4nl : ∀ c ∈ m.g4, c ≠ '\n'
  g4nc : ∀ j, 1 ≤ j → j < m.g4.length →
    startsWithL closeLit ((m.g4 ++ closeLit).drop j) = false
  g5c : m.g5 = closeLit

/-- Two texts that agree everywhere except inside quote-delimited 32-hex
runs (the `md5="..."` fields of matched entries, in which both sides hold
hexadecimal characters). -/
inductive TRel : List Char → List Char → Prop where
  | nil : TRel [] []
  | same (c : Char) (t t' : List Char) : TRel t t' → TRel (c :: t) (c :: t')
  | hrun (h h' t t' : List Char) :
      h.length = 32 → h'.length = 32 →
      (∀ c ∈ h, isHexCh c = true) → (∀ c ∈ h', isHexCh c = true) →
      TRel t t' →
      TRel ('"' :: (h ++ '"' :: t)) ('"' :: (h' ++ '"' :: t'))

/-- Positions inside a hex run (after the opening quote): `n` hex
characters remain before the closing quote on each side. -/
inductive MidRel : Nat → List Char → List Char → Prop where
  | mk (n : Nat) (h h' t t' : List Char) :
      h.length = n → h'.length = n →
      (∀ c ∈ h, isHexCh c = true) → (∀ c ∈ h', isHexCh c = true) →
      TRel t t' →
      MidRel n (h ++ '"' :: t) (h' ++ '"' :: t')

/-- Piece-wise relation: unmatched characters are equal; entries agree on
all groups except possibly the hash group, and both sides are
well-formed. -/
inductive PieceRel : Piece → Piece → Prop where
  | raw (c : Char) : PieceRel (.raw c) (.raw c)
  | entry (m m' : FileMatch) : WF m → WF m' →
      m'.g1 = m.g1 → m'.g3 = m.g3 → m'.g4 = m.g4 → m'.g5 = m.g5 →
      PieceRel (.entry m) (.entry m')

/-! ### Concrete inputs used by the witnesses and counterexamples -/

/-- A manifest with one entry whose recorded hash already equals the
uppercase MD5 of the empty file it references. -/
def t1doc : String :=
  "<File md5=\"D41D8CD98F00B204E9800998ECF8427E\" import=\"0\">a</File>"

/-- The single match of `t1doc`. -/
def m1 : FileMatch :=
  ⟨"<File md5=\"".data, "D41D8CD98F00B204E9800998ECF8427E".data,
   "\" import=\"0\">".data, "a".data, "</File>".data⟩

/-- World for `t1doc`: file `a` exists and is empty. -/
def w1 : World :=
  ⟨some t1doc, fun p => if p = "a" then .readable [] else .missing⟩

/-- Same world as `w1` with a syntactically different file map. -/
def w1b : World :=
  ⟨some t1doc,
   fun p => if p = "b" then .missing else if p = "a" then .readable [] else .missing⟩

/-- An entry whose recorded hash differs from the actual hash of its
(existing) file only in letter case. -/
def yLower : String :=
  "<File md5=\"0cc175b9c0f1b6a831c399e269772661\" import=\"1\">b</File>"

/-- An entry whose recorded hash is stale. -/
def xStale : String :=
  "<File md5=\"00000000000000000000000000000000\" import=\"0\">a</File>"

/-- Manifest holding the case-only entry followed by the stale entry. -/
def t2doc : String := yLower ++ xStale

/-- World for `t2doc`: `a` is the empty file, `b` holds the byte `0x61`
(so its uppercase MD5 is `0CC175B9C0F1B6A831C399E269772661`, equal to the
recorded hash of `yLower` up to case only). -/
def w2 : World :=
  ⟨some t2doc,
   fun p => if p = "a" then .readable [] else if p = "b" then .readable [97] else .missing⟩

/-- The document the synchronizer writes back for `w2`: the stale entry
got the new hash, and the case-only entry got normalized to uppercase. -/
def t2res : String :=
  "<File md5=\"0CC175B9C0F1B6A831C399E269772661\" import=\"1\">b</File><File md5=\"D41D8CD98F00B204E9800998ECF8427E\" import=\"0\">a</File>"

/-- The match of the case-only entry `yLower`. -/
def mY : FileMatch :=
  ⟨"<File md5=\"".data, "0cc175b9c0f1b6a831c399e269772661".data,
   "\" import=\"1\">".data, "b".data, "</File>".data⟩

/-- World whose manifest cannot be read. -/
def w6 : World := ⟨none, fun _ => .missing⟩

/-- Manifest with a stale entry and an entry referencing a missing file. -/
def t8doc : String :=
  xStale ++ "<File md5=\"11111111111111111111111111111111\" import=\"1\">nope</File>"

/-- World for `t8doc`: only `a` exists (empty). -/
def w8 : World :=
  ⟨some t8doc, fun p => if p = "a" then .readable [] else .missing⟩

/-- The match of the stale entry `xStale`. -/
def mX : FileMatch :=
  ⟨"<File md5=\"".data, "00000000000000000000000000000000".data,
   "\" import=\"0\">".data, "a".data, "</File>".data⟩

/-- The match of the missing-file entry of `t8doc`. -/
def mN : FileMatch :=
  ⟨"<File md5=\"".data, "11111111111111111111111111111111".data,
   "\" import=\"1\">".data, "nope".data, "</File>".data⟩

/-- The document the synchronizer writes back for `w8`: the stale entry
got the new hash, the missing-file entry is untouched. -/
def t8res : String :=
  "<File md5=\"D41D8CD98F00B204E9800998ECF8427E\" import=\"0\">a</File><File md5=\"11111111111111111111111111111111\" import=\"1\">nope</File>"

/-! ## Theorems

First, characterization of the `md5_of` output: 32 characters, all
uppercase hexadecimal, fixed by further upper-casing. -/

theorem hexDig_facts : ∀ k, k < 16 → isHexCh (hexDig k) = true ∧
    isHexCh ((hexDig k).toUpper) = true ∧
    ((hexDig k).toUpper).toUpper = (hexDig k).toUpper := by decide

theorem flat_byteHex_len (l : List Nat) :
    ((l.map byteHex).flatten).length = 2 * l.length := by
  induction l with
  | nil => simp
  | cons x xs ih => simp [byteHex, ih]; omega

theorem mem_flat_byteHex (l : List Nat) (c : Char)
    (hc : c ∈ (l.map byteHex).flatten) : ∃ k, k < 16 ∧ c = hexDig k := by
  simp only [List.mem_flatten, List.mem_map] at hc
  obtain ⟨w, ⟨b, _hb, rfl⟩, hcw⟩ := hc
  simp only [byteHex, List.mem_cons, List.mem_singleton, List.not_mem_nil,
    or_false] at hcw
  rcases hcw with rfl | rfl
  · exact ⟨b / 16 % 16, Nat.mod_lt _ (by omega), rfl⟩
  · exact ⟨b % 16, Nat.mod_lt _ (by omega), rfl⟩

theorem md5Digest_len (msg : List Nat) : (md5Digest msg).length = 16 := by
  simp [md5Digest, wordBytesLE]

theorem md5Hex_data (msg : List Nat) :
    (md5Hex msg).data = ((md5Digest msg).map byteHex).flatten := rfl

theorem md5Hex_len (msg : List Nat) : (md5Hex msg).data.length = 32 := by
  rw [md5Hex_data, flat_byteHex_len, md5Digest_len]

theorem md5Hex_mem (msg : List Nat) (c : Char) (hc : c ∈ (md5Hex msg).data) :
    ∃ k, k < 16 ∧ c = hexDig k := by
  rw [md5Hex_data] at hc
  exact mem_flat_byteHex _ c hc

theorem md5Upper_data (msg : List Nat) :
    (md5Upper msg).data = (md5Hex msg).data.map Char.toUpper := rfl

theorem md5Upper_len (msg : List Nat) : (md5Upper msg).data.length = 32 := by
  rw [md5Upper_data, List.length_map, md5Hex_len]

theorem md5Upper_hex (msg : List Nat) :
    ∀ c ∈ (md5Upper msg).data, isHexCh c = true := by
  intro c hc
  rw [md5Upper_data] at hc
  obtain ⟨a, ha, rfl⟩ := List.mem_map.mp hc
  obtain ⟨k, hk, rfl⟩ := md5Hex_mem msg a ha
  exact (hexDig_facts k hk).2.1

theorem strUpper_mk (l : List Char) :
    strUpper (String.mk l) = String.mk (l.map Char.toUpper) := rfl

theorem strUpper_md5Upper (msg : List Nat) :
    strUpper (md5Upper msg) = md5Upper msg := by
  have : md5Upper msg = String.mk ((md5Hex msg).data.map Char.toUpper) := rfl
  rw [this, strUpper_mk, List.map_map]
  congr 1
  apply List.map_congr_left
  intro a ha
  obtain ⟨k, hk, rfl⟩ := md5Hex_mem msg a ha
  exact (hexDig_facts k hk).2.2

/-! ### Soundness of the anchored matcher: a successful match decomposes
the input and the groups are well-formed. -/

theorem matchLit_sound : ∀ (lit t r : List Char), matchLit lit t = some r →
    t = lit ++ r := by
  intro lit
  induction lit with
  | nil =>
    intro t r h
    simp only [matchLit, Option.some.injEq] at h
    simp [h]
  | cons p ps ih =>
    intro t r h
    cases t with
    | nil => simp [matchLit] at h
    | cons c cs =>
      simp only [matchLit] at h
      split at h
      case isTrue hp => rw [List.cons_append, ← hp, ih cs r h]
      case isFalse => exact absurd h (by simp)

theorem takeWs_ws : ∀ t : List Char, ∀ c ∈ (takeWs t).1, isWs c = true := by
  intro t
  induction t with
  | nil => simp [takeWs]
  | cons c cs ih =>
    simp only [takeWs]
    split
    case isTrue hw =>
      intro x hx
      simp only [List.mem_cons] at hx
      rcases hx with rfl | hx
      · exact hw
      · exact ih x hx
    case isFalse => simp

theorem takeSpaces1_sound (t sp r : List Char) (h : takeSpaces1 t = some (sp, r)) :
    t = sp ++ r ∧ sp ≠ [] ∧ ∀ c ∈ sp, isWs c = true := by
  simp only [takeSpaces1] at h
  split at h
  case isTrue => exact absurd h (by simp)
  case isFalse hne =>
    simp only [Option.some.injEq] at h
    have h1 : sp = (takeWs t).1 := by rw [h]
    have h2 : r = (takeWs t).2 := by rw [h]
    refine ⟨?_, ?_, ?_⟩
    · rw [h1, h2, takeWs_split]
    · rw [h1]; simpa [List.isEmpty_iff] using hne
    · rw [h1]; exact takeWs_ws t

theorem takeHex_hex : ∀ (n : Nat) (t h r : List Char), takeHex n t = some (h, r) →
    ∀ c ∈ h, isHexCh c = true := by
  intro n
  induction n with
  | zero =>
    intro t h r hp
    simp only [takeHex, Option.some.injEq, Prod.mk.injEq] at hp
    rw [← hp.1]
    simp
  | succ k ih =>
    intro t h r hp
    cases t with
    | nil => simp [takeHex] at hp
    | cons c cs =>
      simp only [takeHex] at hp
      split at hp
      case isTrue hhex =>
        cases hk : takeHex k cs with
        | none => rw [hk] at hp; simp at hp
        | some p =>
          rw [hk] at hp
          simp only [Option.map_some', Option.some.injEq, Prod.mk.injEq] at hp
          obtain ⟨rfl, rfl⟩ := hp
          intro x hx
          simp only [List.mem_cons] at hx
          rcases hx with rfl | hx
          · exact hhex
          · exact ih cs p.1 p.2 (by rw [hk]) x hx
      case isFalse => exact absurd hp (by simp)

theorem takeImportDigit_sound (t : List Char) (d : Char) (r : List Char)
    (h : takeImportDigit t = some (d, r)) : t = d :: r ∧ (d = '0' ∨ d = '1') := by
  cases t with
  | nil => simp [takeImportDigit] at h
  | cons c cs =>
    simp only [takeImportDigit] at h
    split at h
    case isTrue hd =>
      simp only [Option.some.injEq, Prod.mk.injEq] at h
      obtain ⟨rfl, rfl⟩ := h
      exact ⟨rfl, hd⟩
    case isFalse => exact absurd h (by simp)

theorem startsWithL_of_append : ∀ (lit r : List Char),
    startsWithL lit (lit ++ r) = true := by
  intro lit
  induction lit with
  | nil => intro r; rfl
  | cons p ps ih => intro r; simp [startsWithL, ih]

theorem startsWithL_append_indep : ∀ (lit x y : List Char),
    lit.length ≤ x.length → startsWithL lit (x ++ y) = startsWithL lit x := by
  intro lit
  induction lit with
  | nil => intro x y _; rfl
  | cons p ps ih =>
    intro x y hl
    cases x with
    | nil => simp at hl
    | cons c cs =>
      simp only [List.cons_append, startsWithL, List.append_eq]
      rw [ih cs y (by simpa using hl)]

theorem pathClose_sound : ∀ (t p r : List Char), pathClose t = some (p, r) →
    t = p ++ closeLit ++ r ∧ (∀ c ∈ p, c ≠ '\n') ∧
    ∀ j, j < p.length → startsWithL closeLit ((p ++ closeLit).drop j) = false := by
  intro t
  induction t with
  | nil =>
    intro p r h
    rw [pathClose] at h
    rw [show startsWithL closeLit [] = false by decide] at h
    simp at h
  | cons c cs ih =>
    intro p r h
    rw [pathClose] at h
    split at h
    case isTrue hs =>
      simp only [Option.some.injEq, Prod.mk.injEq] at h
      obtain ⟨rfl, rfl⟩ := h
      refine ⟨?_, by simp, by simp⟩
      simpa using startsWithL_append (closeLit) (c :: cs) hs
    case isFalse hs =>
      split at h
      · exact absurd h (by simp)
      case isFalse hc =>
        cases hk : pathClose cs with
        | none => rw [hk] at h; simp at h
        | some pp =>
          rw [hk] at h
          simp only [Option.map_some', Option.some.injEq, Prod.mk.injEq] at h
          obtain ⟨rfl, rfl⟩ := h
          obtain ⟨hd, hnl, hnc⟩ := ih pp.1 pp.2 (by rw [hk])
          refine ⟨?_, ?_, ?_⟩
          · simp only [List.cons_append, List.append_assoc] at hd ⊢
            rw [hd]
          · intro x hx
            simp only [List.mem_cons] at hx
            rcases hx with rfl | hx
            · exact hc
            · exact hnl x hx
          · intro j hj
            cases j with
            | zero =>
              simp only [List.drop_zero]
              have h7 : closeLit.length ≤ (c :: (pp.1 ++ closeLit)).length := by
                simp [closeLit]
              have := startsWithL_append_indep closeLit (c :: (pp.1 ++ closeLit)) pp.2 h7
              rw [List.cons_append] at this ⊢
              rw [← this]
              have hcs : (pp.1 ++ closeLit) ++ pp.2 = cs := by
                simp only [List.append_assoc] at hd ⊢
                exact hd.symm
              rw [show c :: (pp.1 ++ closeLit ++ pp.2) = c :: cs by rw [hcs]]
              simpa using hs
            | succ j2 =>
              simp only [List.cons_append, List.drop_succ_cons]
              exact hnc j2 (by simpa using hj)

theorem pathScan_sound : ∀ (t p r : List Char), pathScan t = some (p, r) →
    t = p ++ closeLit ++ r ∧ p ≠ [] ∧ (∀ c ∈ p, c ≠ '\n') ∧
    ∀ j, 1 ≤ j → j < p.length →
      startsWithL closeLit ((p ++ closeLit).drop j) = false := by
  intro t p r h
  cases t with
  | nil => simp [pathScan] at h
  | cons c cs =>
    simp only [pathScan] at h
    split at h
    · exact absurd h (by simp)
    case isFalse hc =>
      cases hk : pathClose cs with
      | none => rw [hk] at h; simp at h
      | some pp =>
        rw [hk] at h
        simp only [Option.map_some', Option.some.injEq, Prod.mk.injEq] at h
        obtain ⟨rfl, rfl⟩ := h
        obtain ⟨hd, hnl, hnc⟩ := pathClose_sound cs pp.1 pp.2 (by rw [hk])
        refine ⟨?_, by simp, ?_, ?_⟩
        · simp only [List.cons_append, List.append_assoc] at hd ⊢
          rw [hd]
        · intro x hx
          simp only [List.mem_cons] at hx
          rcases hx with rfl | hx
          · exact hc
          · exact hnl x hx
        · intro j hj1 hj2
          cases j with
          | zero => omega
          | succ j2 =>
            simp only [List.cons_append, List.drop_succ_cons]
            exact hnc j2 (by simpa using hj2)

theorem matchAt_sound (t : List Char) (m : FileMatch) (r : List Char)
    (hm : matchAt t = some (m, r)) : t = mStr m ++ r ∧ WF m := by
  obtain ⟨t1, sp1, t2, t3, h, t4, t5, sp2, t6, t7, d, t8, t9, p, t10,
    h1, h2, h3, h4, h5, h6, h7, h8, h9, h10, hmm, hr⟩ := matchAt_stages t m r hm
  have e1 := matchLit_sound fileLit t t1 h1
  obtain ⟨e2, hsp1ne, hsp1ws⟩ := takeSpaces1_sound t1 sp1 t2 h2
  have e3 := matchLit_sound md5Lit t2 t3 h3
  obtain ⟨e4, e4len⟩ := takeHex_len 32 t3 h t4 h4
  have e4hex := takeHex_hex 32 t3 h t4 h4
  have e5 := matchLit_sound ['"'] t4 t5 h5
  obtain ⟨e6, hsp2ne, hsp2ws⟩ := takeSpaces1_sound t5 sp2 t6 h6
  have e7 := matchLit_sound importLit t6 t7 h7
  obtain ⟨e8, hd01⟩ := takeImportDigit_sound t7 d t8 h8
  have e9 := matchLit_sound quoteGt t8 t9 h9
  obtain ⟨e10, hpne, hpnl, hpnc⟩ := pathScan_sound t9 p t10 h10
  subst hmm hr
  constructor
  · rw [e1, e2, e3, ← e4, e5, e6, e7, e8, e9, e10]
    simp [mStr, quoteGt, List.append_assoc]
  · exact {
      g1s := ⟨sp1, hsp1ne, hsp1ws, rfl⟩
      g2len := e4len
      g2hex := e4hex
      g3s := ⟨sp2, d, hsp2ne, hsp2ws, hd01, rfl⟩
      g4ne := hpne
      g4nl := hpnl
      g4nc := hpnc
      g5c := rfl }

/-! ### Completeness of the anchored matcher: a well-formed region at the
head of the input is matched, with exactly its groups. -/

theorem matchLit_append : ∀ (lit r : List Char), matchLit lit (lit ++ r) = some r := by
  intro lit
  induction lit with
  | nil => intro r; rfl
  | cons p ps ih => intro r; simp [matchLit, ih]

theorem takeWs_append : ∀ (sp : List Char) (x : Char) (r : List Char),
    (∀ c ∈ sp, isWs c = true) → isWs x = false →
    takeWs (sp ++ x :: r) = (sp, x :: r) := by
  intro sp
  induction sp with
  | nil =>
    intro x r _ hx
    simp [takeWs, hx]
  | cons c cs ih =>
    intro x r hws hx
    have hc : isWs c = true := hws c (by simp)
    simp only [List.cons_append, takeWs, hc, if_true, List.append_eq]
    rw [ih x r (fun a ha => hws a (by simp [ha])) hx]

theorem takeSpaces1_append (sp : List Char) (x : Char) (r : List Char)
    (hne : sp ≠ []) (hws : ∀ c ∈ sp, isWs c = true) (hx : isWs x = false) :
    takeSpaces1 (sp ++ x :: r) = some (sp, x :: r) := by
  simp only [takeSpaces1, takeWs_append sp x r hws hx]
  split
  case isTrue he => simp [List.isEmpty_iff] at he; exact absurd he hne
  case isFalse => rfl

theorem takeHex_append : ∀ (h r : List Char), (∀ c ∈ h, isHexCh c = true) →
    takeHex h.length (h ++ r) = some (h, r) := by
  intro h
  induction h with
  | nil => intro r _; rfl
  | cons c cs ih =>
    intro r hhex
    have hc : isHexCh c = true := hhex c (by simp)
    simp only [List.length_cons, List.cons_append, takeHex, hc, if_true,
      List.append_eq]
    rw [ih r (fun a ha => hhex a (by simp [ha]))]
    rfl

theorem pathClose_append : ∀ (p r : List Char), (∀ c ∈ p, c ≠ '\n') →
    (∀ j, j < p.length → startsWithL closeLit ((p ++ closeLit).drop j) = false) →
    pathClose (p ++ closeLit ++ r) = some (p, r) := by
  intro p
  induction p with
  | nil =>
    intro r _ _
    rw [pathClose.eq_def]
    rw [show startsWithL closeLit (([] : List Char) ++ closeLit ++ r) = true by
      simpa using startsWithL_of_append closeLit r]
    simp [closeLit]
  | cons c cs ih =>
    intro r hnl hnc
    rw [pathClose.eq_def]
    have h0 : startsWithL closeLit ((c :: cs) ++ closeLit ++ r) = false := by
      have := hnc 0 (by simp)
      simp only [List.drop_zero] at this
      have h7 : closeLit.length ≤ ((c :: cs) ++ closeLit).length := by simp; omega
      rw [show (c :: cs) ++ closeLit ++ r = ((c :: cs) ++ closeLit) ++ r by simp,
        startsWithL_append_indep closeLit ((c :: cs) ++ closeLit) r h7]
      exact this
    rw [show ((c :: cs) ++ closeLit ++ r) = c :: (cs ++ closeLit ++ r) by simp] at h0 ⊢
    rw [h0]
    simp only [Bool.false_eq_true, if_false]
    rw [if_neg (hnl c (by simp))]
    rw [ih r (fun a ha => hnl a (by simp [ha])) ?_]
    · rfl
    · intro j hj
      have := hnc (j + 1) (by simpa using hj)
      simpa using this

theorem pathScan_append (p r : List Char) (hne : p ≠ [])
    (hnl : ∀ c ∈ p, c ≠ '\n')
    (hnc : ∀ j, 1 ≤ j → j < p.length →
      startsWithL closeLit ((p ++ closeLit).drop j) = false) :
    pathScan (p ++ closeLit ++ r) = some (p, r) := by
  cases p with
  | nil => exact absurd rfl hne
  | cons c cs =>
    rw [show ((c :: cs) ++ closeLit ++ r) = c :: (cs ++ closeLit ++ r) by simp]
    simp only [pathScan]
    rw [if_neg (hnl c (by simp))]
    rw [pathClose_append cs r (fun a ha => hnl a (by simp [ha])) ?_]
    · rfl
    · intro j hj
      have := hnc (j + 1) (by omega) (by simpa using hj)
      simpa using this

theorem matchAt_of_stages (t t1 sp1 t2 t3 h t4 t5 sp2 t6 t7 t8 t9 p t10 : List Char)
    (d : Char)
    (h1 : matchLit fileLit t = some t1)
    (h2 : takeSpaces1 t1 = some (sp1, t2))
    (h3 : matchLit md5Lit t2 = some t3)
    (h4 : takeHex 32 t3 = some (h, t4))
    (h5 : matchLit ['"'] t4 = some t5)
    (h6 : takeSpaces1 t5 = some (sp2, t6))
    (h7 : matchLit importLit t6 = some t7)
    (h8 : takeImportDigit t7 = some (d, t8))
    (h9 : matchLit quoteGt t8 = some t9)
    (h10 : pathScan t9 = some (p, t10)) :
    matchAt t = some (⟨fileLit ++ sp1 ++ md5Lit, h,
      '"' :: (sp2 ++ importLit ++ [d, '"', '>']), p, closeLit⟩, t10) := by
  simp only [matchAt, h1, h2, h3, h4, h5, h6, h7, h8, h9, h10,
    Option.bind_eq_bind, Option.some_bind, Option.pure_def]

theorem matchAt_complete (m : FileMatch) (hwf : WF m) (r : List Char) :
    matchAt (mStr m ++ r) = some (m, r) := by
  obtain ⟨sp1, hsp1ne, hsp1ws, hg1⟩ := hwf.g1s
  obtain ⟨sp2, d, hsp2ne, hsp2ws, hd01, hg3⟩ := hwf.g3s
  have hstr : mStr m ++ r =
      fileLit ++ (sp1 ++ (md5Lit ++ (m.g2 ++ ('"' :: (sp2 ++
        (importLit ++ (d :: ('"' :: ('>' :: (m.g4 ++ (closeLit ++ r)))))))))))  := by
    rw [mStr, hg1, hg3, hwf.g5c]
    simp [List.append_assoc]
  rw [hstr]
  have s1 : matchLit fileLit (fileLit ++ (sp1 ++ (md5Lit ++ (m.g2 ++ ('"' :: (sp2 ++
      (importLit ++ (d :: ('"' :: ('>' :: (m.g4 ++ (closeLit ++ r)))))))))))) =
      some (sp1 ++ (md5Lit ++ (m.g2 ++ ('"' :: (sp2 ++
      (importLit ++ (d :: ('"' :: ('>' :: (m.g4 ++ (closeLit ++ r)))))))))) ) :=
    matchLit_append fileLit _
  have s2 : takeSpaces1 (sp1 ++ (md5Lit ++ (m.g2 ++ ('"' :: (sp2 ++
      (importLit ++ (d :: ('"' :: ('>' :: (m.g4 ++ (closeLit ++ r))))))))))) =
      some (sp1, md5Lit ++ (m.g2 ++ ('"' :: (sp2 ++
      (importLit ++ (d :: ('"' :: ('>' :: (m.g4 ++ (closeLit ++ r)))))))))) := by
    have : md5Lit ++ (m.g2 ++ ('"' :: (sp2 ++ (importLit ++ (d :: ('"' :: ('>' ::
        (m.g4 ++ (closeLit ++ r))))))))) = 'm' :: ('d' :: ('5' :: ('=' :: ('"' ::
        (m.g2 ++ ('"' :: (sp2 ++ (importLit ++ (d :: ('"' :: ('>' ::
        (m.g4 ++ (closeLit ++ r))))))))))))) := by
      simp [md5Lit]
    rw [this, takeSpaces1_append sp1 'm' _ hsp1ne hsp1ws (by decide)]
  have s3 : matchLit md5Lit (md5Lit ++ (m.g2 ++ ('"' :: (sp2 ++
      (importLit ++ (d :: ('"' :: ('>' :: (m.g4 ++ (closeLit ++ r)))))))))) =
      some (m.g2 ++ ('"' :: (sp2 ++
      (importLit ++ (d :: ('"' :: ('>' :: (m.g4 ++ (closeLit ++ r))))))))) :=
    matchLit_append md5Lit _
  have s4 : takeHex 32 (m.g2 ++ ('"' :: (sp2 ++
      (importLit ++ (d :: ('"' :: ('>' :: (m.g4 ++ (closeLit ++ r))))))))) =
      some (m.g2, '"' :: (sp2 ++
      (importLit ++ (d :: ('"' :: ('>' :: (m.g4 ++ (closeLit ++ r)))))))) := by
    rw [← hwf.g2len]
    exact takeHex_append m.g2 _ hwf.g2hex
  have s5 : matchLit ['"'] ('"' :: (sp2 ++
      (importLit ++ (d :: ('"' :: ('>' :: (m.g4 ++ (closeLit ++ r)))))))) =
      some (sp2 ++ (importLit ++ (d :: ('"' :: ('>' ::
      (m.g4 ++ (closeLit ++ r))))))) := by
    simp [matchLit]
  have s6 : takeSpaces1 (sp2 ++ (importLit ++ (d :: ('"' :: ('>' ::
      (m.g4 ++ (closeLit ++ r))))))) =
      some (sp2, importLit ++ (d :: ('"' :: ('>' :: (m.g4 ++ (closeLit ++ r)))))) := by
    have : importLit ++ (d :: ('"' :: ('>' :: (m.g4 ++ (closeLit ++ r))))) =
        'i' :: ('m' :: ('p' :: ('o' :: ('r' :: ('t' :: ('=' :: ('"' ::
        (d :: ('"' :: ('>' :: (m.g4 ++ (closeLit ++ r)))))))))))) := by
      simp [importLit]
    rw [this, takeSpaces1_append sp2 'i' _ hsp2ne hsp2ws (by decide)]
  have s7 : matchLit importLit (importLit ++ (d :: ('"' :: ('>' ::
      (m.g4 ++ (closeLit ++ r)))))) =
      some (d :: ('"' :: ('>' :: (m.g4 ++ (closeLit ++ r))))) :=
    matchLit_append importLit _
  have s8 : takeImportDigit (d :: ('"' :: ('>' :: (m.g4 ++ (closeLit ++ r))))) =
      some (d, '"' :: ('>' :: (m.g4 ++ (closeLit ++ r)))) := by
    simp only [takeImportDigit]
    rw [if_pos hd01]
  have s9 : matchLit quoteGt ('"' :: ('>' :: (m.g4 ++ (closeLit ++ r)))) =
      some (m.g4 ++ (closeLit ++ r)) := by
    simp [matchLit, quoteGt]
  have s10 : pathScan (m.g4 ++ (closeLit ++ r)) = some (m.g4, r) := by
    rw [show m.g4 ++ (closeLit ++ r) = m.g4 ++ closeLit ++ r by simp]
    exact pathScan_append m.g4 r hwf.g4ne hwf.g4nl hwf.g4nc
  have := matchAt_of_stages _ _ _ _ _ _ _ _ _ _ _ _ _ _ _ d
    s1 s2 s3 s4 s5 s6 s7 s8 s9 s10
  rw [this]
  have hm : (⟨fileLit ++ sp1 ++ md5Lit, m.g2,
      '"' :: (sp2 ++ importLit ++ [d, '"', '>']), m.g4, closeLit⟩ : FileMatch) = m := by
    have e5 : m.g5 = closeLit := hwf.g5c
    cases m
    simp_all
  rw [hm]

/-! ### Basic facts about the scan and the substitution pass -/

theorem scanPieces_nil : scanPieces [] = [] := scanPieces.eq_1

theorem scanPieces_pos (c : Char) (rest : List Char) (m : FileMatch) (r : List Char)
    (hm : matchAt (c :: rest) = some (m, r)) :
    scanPieces (c :: rest) = .entry m :: scanPieces r := by
  rw [scanPieces.eq_2]
  split
  · rename_i m2 r2 heq
    rw [hm] at heq
    simp only [Option.some.injEq, Prod.mk.injEq] at heq
    rw [heq.1, heq.2]
  · rename_i heq
    rw [hm] at heq
    simp at heq

theorem scanPieces_neg (c : Char) (rest : List Char)
    (hm : matchAt (c :: rest) = none) :
    scanPieces (c :: rest) = .raw c :: scanPieces rest := by
  rw [scanPieces.eq_2]
  split
  · rename_i m2 r2 heq
    rw [hm] at heq
    simp at heq
  · rfl

theorem renderP_nil : renderP [] = [] := rfl

theorem renderP_cons (p : Piece) (ps : List Piece) :
    renderP (p :: ps) = pieceText p ++ renderP ps := by
  simp [renderP]

theorem renderP_scan (l : List Char) : renderP (scanPieces l) = l := by
  induction l using scanPieces.induct with
  | case1 => rw [scanPieces_nil]; rfl
  | case2 c rest m r hm ih =>
    rw [scanPieces_pos c rest m r hm, renderP_cons, ih]
    exact ((matchAt_sound _ m r hm).1).symm
  | case3 c rest hm ih =>
    rw [scanPieces_neg c rest hm, renderP_cons, ih]
    rfl

theorem scan_entries_wf (l : List Char) :
    ∀ m, Piece.entry m ∈ scanPieces l → WF m := by
  induction l using scanPieces.induct with
  | case1 => intro m hm; simp [scanPieces_nil] at hm
  | case2 c rest m2 r hm ih =>
    intro m hmem
    rw [scanPieces_pos c rest m2 r hm] at hmem
    rcases List.mem_cons.mp hmem with he | hmem2
    · have : m = m2 := by
        injection he
      rw [this]
      exact (matchAt_sound _ m2 r hm).2
    · exact ih m hmem2
  | case3 c rest hm ih =>
    intro m hmem
    rw [scanPieces_neg c rest hm] at hmem
    rcases List.mem_cons.mp hmem with he | hmem2
    · exact absurd he (by simp)
    · exact ih m hmem2

theorem mapPieces_nil (files : String → FileState) : mapPieces files [] = [] := rfl

theorem mapPieces_cons (files : String → FileState) (p : Piece) (ps : List Piece) :
    mapPieces files (p :: ps) = mapPiece files p :: mapPieces files ps := rfl

theorem updCount_nil (files : String → FileState) : updCount files [] = 0 := rfl

theorem updCount_cons (files : String → FileState) (p : Piece) (ps : List Piece) :
    updCount files (p :: ps) =
      (if isUpd files p then 1 else 0) + updCount files ps := by
  simp only [updCount, List.countP_cons]
  split <;> omega

theorem linesOf_nil (files : String → FileState) : linesOf files [] = [] := rfl

theorem linesOf_cons (files : String → FileState) (p : Piece) (ps : List Piece) :
    linesOf files (p :: ps) =
      ((lineOf files p).toList) ++ linesOf files ps := by
  simp only [linesOf, List.filterMap_cons]
  cases lineOf files p <;> simp

/-- Characterization of a completed substitution pass: the rebuilt text is
the rendering of the hash-replaced pieces, the counter advanced by the
number of stale readable entries, and the log lines are appended in
order. -/
theorem processPieces_done (files : String → FileState) :
    ∀ (ps : List Piece) (u : Nat) (out : List String)
      (t : List Char) (u2 : Nat) (o2 : List String),
    processPieces files ps u out = .done t u2 o2 →
    t = renderP (mapPieces files ps) ∧ u2 = u + updCount files ps ∧
      o2 = out ++ linesOf files ps := by
  intro ps
  induction ps with
  | nil =>
    intro u out t u2 o2 h
    simp only [processPieces, SubOutcome.done.injEq] at h
    obtain ⟨rfl, rfl, rfl⟩ := h
    simp [mapPieces_nil, renderP_nil, updCount_nil, linesOf_nil]
  | cons p ps ih =>
    cases p with
    | raw c =>
      intro u out t u2 o2 h
      simp only [processPieces] at h
      split at h
      · exact absurd h (by simp)
      · rename_i t1 u1 o1 heq
        simp only [SubOutcome.done.injEq] at h
        obtain ⟨rfl, rfl, rfl⟩ := h
        obtain ⟨rfl, h2, h3⟩ := ih u out t1 u1 o1 heq
        refine ⟨?_, ?_, ?_⟩
        · rw [mapPieces_cons, renderP_cons]
          rfl
        · rw [h2, updCount_cons]
          simp [isUpd]
        · rw [h3, linesOf_cons]
          simp [lineOf]
    | entry m =>
      intro u out t u2 o2 h
      simp only [processPieces] at h
      split at h
      · exact absurd h (by simp)
      · rename_i t' u1' o1' heq
        split at h
        · exact absurd h (by simp)
        · rename_i t2 u2' o2' heq2
          simp only [SubOutcome.done.injEq] at h
          obtain ⟨rfl, rfl, rfl⟩ := h
          cases hfs : files (String.mk m.g4) with
          | missing =>
            rw [show replaceMatch files m u out =
                some (mStr m, u, out ++ ["  MISSING: " ++ String.mk m.g4]) by
              simp only [replaceMatch, hfs]] at heq
            simp only [Option.some.injEq, Prod.mk.injEq] at heq
            obtain ⟨rfl, rfl, rfl⟩ := heq
            obtain ⟨rfl, h2, h3⟩ := ih _ _ t2 u2' o2' heq2
            refine ⟨?_, ?_, ?_⟩
            · rw [mapPieces_cons, renderP_cons]
              simp only [mapPiece, hfs, pieceText]
            · rw [h2, updCount_cons]
              simp [isUpd, hfs]
            · rw [h3, linesOf_cons]
              simp [lineOf, hfs]
          | unreadable =>
            rw [show replaceMatch files m u out = none by
              simp only [replaceMatch, hfs]] at heq
            simp at heq
          | readable b =>
            rw [show replaceMatch files m u out =
                some (m.g1 ++ (md5Upper b).data ++ m.g3 ++ m.g4 ++ m.g5,
                  if strUpper (String.mk m.g2) ≠ md5Upper b then u + 1 else u,
                  if strUpper (String.mk m.g2) ≠ md5Upper b then
                    out ++ ["  " ++ String.mk m.g4 ++ ": " ++ strUpper (String.mk m.g2) ++
                      " -> " ++ md5Upper b]
                  else out) by
              simp only [replaceMatch, hfs]
              split <;> rfl] at heq
            simp only [Option.some.injEq, Prod.mk.injEq] at heq
            obtain ⟨rfl, rfl, rfl⟩ := heq
            obtain ⟨rfl, h2, h3⟩ := ih _ _ t2 u2' o2' heq2
            refine ⟨?_, ?_, ?_⟩
            · rw [mapPieces_cons, renderP_cons]
              simp only [mapPiece, hfs, pieceText, mStr]
              try simp [List.append_assoc]
            · rw [h2, updCount_cons]
              simp only [isUpd, hfs]
              split
              · rename_i hne
                simp [hne]
                try omega
              · rename_i hne
                have heqq : strUpper (String.mk m.g2) = md5Upper b := not_ne_iff.mp hne
                simp [heqq]
                try omega
            · rw [h3, linesOf_cons]
              simp only [lineOf, hfs]
              split
              · rename_i hne
                simp [hne]
              · rename_i hne
                have heqq : strUpper (String.mk m.g2) = md5Upper b := not_ne_iff.mp hne
                simp [heqq]

/-- A completed pass implies no entry referenced an unreadable file. -/
theorem processPieces_done_not_unreadable (files : String → FileState) :
    ∀ (ps : List Piece) (u : Nat) (out : List String) (t : List Char)
      (u2 : Nat) (o2 : List String),
    processPieces files ps u out = .done t u2 o2 →
    ∀ m, Piece.entry m ∈ ps → files (String.mk m.g4) ≠ .unreadable := by
  intro ps
  induction ps with
  | nil =>
    intro u out t u2 o2 _ m hm
    simp at hm
  | cons p ps ih =>
    cases p with
    | raw c =>
      intro u out t u2 o2 h m hm
      simp only [processPieces] at h
      split at h
      · exact absurd h (by simp)
      · rename_i t1 u1 o1 heq
        rcases List.mem_cons.mp hm with he | hm2
        · exact absurd he (by simp)
        · exact ih u out t1 u1 o1 heq m hm2
    | entry m0 =>
      intro u out t u2 o2 h m hm
      simp only [processPieces] at h
      split at h
      · exact absurd h (by simp)
      · rename_i t' u1' o1' heq
        split at h
        · exact absurd h (by simp)
        · rename_i t2 u2' o2' heq2
          rcases List.mem_cons.mp hm with he | hm2
          · have hmm : m = m0 := by injection he
            subst hmm
            intro hun
            rw [show replaceMatch files m u out = none by
              simp only [replaceMatch, hun]] at heq
            simp at heq
          · exact ih _ _ t2 u2' o2' heq2 m hm2

/-- If no entry references an unreadable file, the pass completes. -/
theorem processPieces_total (files : String → FileState) :
    ∀ (ps : List Piece) (u : Nat) (out : List String),
    (∀ m, Piece.entry m ∈ ps → files (String.mk m.g4) ≠ .unreadable) →
    ∃ t u2 o2, processPieces files ps u out = .done t u2 o2 := by
  intro ps
  induction ps with
  | nil => intro u out _; exact ⟨[], u, out, rfl⟩
  | cons p ps ih =>
    cases p with
    | raw c =>
      intro u out hno
      obtain ⟨t, u2, o2, hrec⟩ := ih u out (fun m hm => hno m (by simp [hm]))
      refine ⟨c :: t, u2, o2, ?_⟩
      simp only [processPieces, hrec]
    | entry m =>
      intro u out hno
      cases hfs : files (String.mk m.g4) with
      | unreadable => exact absurd hfs (hno m (by simp))
      | missing =>
        obtain ⟨t, u2, o2, hrec⟩ :=
          ih u (out ++ ["  MISSING: " ++ String.mk m.g4])
            (fun m2 hm2 => hno m2 (by simp [hm2]))
        refine ⟨mStr m ++ t, u2, o2, ?_⟩
        simp only [processPieces]
        rw [show replaceMatch files m u out =
            some (mStr m, u, out ++ ["  MISSING: " ++ String.mk m.g4]) by
          simp only [replaceMatch, hfs]]
        simp only [hrec]
      | readable b =>
        obtain ⟨t, u2, o2, hrec⟩ :=
          ih (if strUpper (String.mk m.g2) ≠ md5Upper b then u + 1 else u)
            (if strUpper (String.mk m.g2) ≠ md5Upper b then
              out ++ ["  " ++ String.mk m.g4 ++ ": " ++ strUpper (String.mk m.g2) ++
                " -> " ++ md5Upper b]
            else out)
            (fun m2 hm2 => hno m2 (by simp [hm2]))
        refine ⟨m.g1 ++ (md5Upper b).data ++ m.g3 ++ m.g4 ++ m.g5 ++ t, u2, o2, ?_⟩
        simp only [processPieces]
        rw [show replaceMatch files m u out =
            some (m.g1 ++ (md5Upper b).data ++ m.g3 ++ m.g4 ++ m.g5,
              if strUpper (String.mk m.g2) ≠ md5Upper b then u + 1 else u,
              if strUpper (String.mk m.g2) ≠ md5Upper b then
                out ++ ["  " ++ String.mk m.g4 ++ ": " ++ strUpper (String.mk m.g2) ++
                  " -> " ++ md5Upper b]
              else out) by
          simp only [replaceMatch, hfs]
          split <;> rfl]
        simp only [hrec]

/-- A zero count means every readable entry's recorded hash was already
the computed one, up to case. -/
theorem updCount_zero (files : String → FileState) (ps : List Piece)
    (hz : updCount files ps = 0) :
    ∀ m, Piece.entry m ∈ ps → ∀ b, files (String.mk m.g4) = .readable b →
    strUpper (String.mk m.g2) = md5Upper b := by
  intro m hm b hb
  by_contra hne
  have hupd : isUpd files (Piece.entry m) = true := by
    simp [isUpd, hb, hne]
  have := List.countP_eq_zero.mp hz _ hm
  simp [hupd] at this

/-- The hash-replaced version of a well-formed entry is well-formed. -/
theorem wf_mapPiece_entry (m : FileMatch) (hwf : WF m) (b : List Nat) :
    WF ⟨m.g1, (md5Upper b).data, m.g3, m.g4, m.g5⟩ :=
  { g1s := hwf.g1s
    g2len := md5Upper_len b
    g2hex := md5Upper_hex b
    g3s := hwf.g3s
    g4ne := hwf.g4ne
    g4nl := hwf.g4nl
    g4nc := hwf.g4nc
    g5c := hwf.g5c }

theorem forall2_pieceRel_mapPieces (files : String → FileState) (ps : List Piece)
    (hwf : ∀ m, Piece.entry m ∈ ps → WF m) :
    List.Forall₂ PieceRel ps (mapPieces files ps) := by
  induction ps with
  | nil => exact List.Forall₂.nil
  | cons p ps ih =>
    rw [mapPieces_cons]
    refine List.Forall₂.cons ?_ (ih (fun m hm => hwf m (by simp [hm])))
    cases p with
    | raw c => exact PieceRel.raw c
    | entry m =>
      have hm := hwf m (by simp)
      cases hfs : files (String.mk m.g4) with
      | readable b =>
        simp only [mapPiece, hfs]
        exact PieceRel.entry m _ hm (wf_mapPiece_entry m hm b) rfl rfl rfl rfl
      | missing =>
        simp only [mapPiece, hfs]
        exact PieceRel.entry m m hm hm rfl rfl rfl rfl
      | unreadable =>
        simp only [mapPiece, hfs]
        exact PieceRel.entry m m hm hm rfl rfl rfl rfl

/-- Re-processing already-replaced pieces counts no update. -/
theorem updCount_mapPieces (files : String → FileState) (ps : List Piece) :
    updCount files (mapPieces files ps) = 0 := by
  induction ps with
  | nil => rfl
  | cons p ps ih =>
    rw [mapPieces_cons, updCount_cons, ih]
    suffices h : isUpd files (mapPiece files p) = false by simp [h]
    cases p with
    | raw c => rfl
    | entry m =>
      cases hfs : files (String.mk m.g4) with
      | readable b =>
        simp only [mapPiece, hfs, isUpd]
        rw [strUpper_md5Upper]
        simp
      | missing => simp [mapPiece, hfs, isUpd]
      | unreadable => simp [mapPiece, hfs, isUpd]

/-- Re-processed pieces keep the same referenced files. -/
theorem mapPieces_not_unreadable (files : String → FileState) (ps : List Piece)
    (hno : ∀ m, Piece.entry m ∈ ps → files (String.mk m.g4) ≠ .unreadable) :
    ∀ m, Piece.entry m ∈ mapPieces files ps → files (String.mk m.g4) ≠ .unreadable := by
  intro m hm
  simp only [mapPieces, List.mem_map] at hm
  obtain ⟨p, hp, hmp⟩ := hm
  cases p with
  | raw c => simp [mapPiece] at hmp
  | entry m0 =>
    cases hfs : files (String.mk m0.g4) with
    | readable b =>
      rw [show mapPiece files (Piece.entry m0) =
          .entry ⟨m0.g1, (md5Upper b).data, m0.g3, m0.g4, m0.g5⟩ by
        simp only [mapPiece, hfs]] at hmp
      have : m = ⟨m0.g1, (md5Upper b).data, m0.g3, m0.g4, m0.g5⟩ := by
        injection hmp.symm
      rw [this]
      simp only []
      rw [hfs]
      simp
    | missing =>
      rw [show mapPiece files (Piece.entry m0) = .entry m0 by
        simp only [mapPiece, hfs]] at hmp
      have : m = m0 := by injection hmp.symm
      rw [this, hfs]
      simp
    | unreadable => exact absurd hfs (hno m0 hp)

/-! ### Lockstep simulation: the matcher cannot distinguish two texts that
differ only inside the quote-delimited 32-hex runs.

The key structural facts: a hex run is delimited by `"` on both sides, a
hexadecimal character is never whitespace, never a newline, never one of
the structural characters of the pattern, and every literal of the
pattern that could reach into a run contains a non-hex character next to
the run boundary.  Each parser stage therefore behaves identically on
`TRel`-related texts. -/

theorem hex_not_ws (c : Char) (hc : isHexCh c = true) : isWs c = false := by
  cases hw : isWs c
  · rfl
  · exfalso
    simp only [isWs, decide_eq_true_eq] at hw
    rcases hw with rfl | rfl | rfl | rfl | rfl | rfl <;> exact absurd hc (by decide)

theorem hex_ne (c : Char) (hc : isHexCh c = true) (x : Char)
    (hx : isHexCh x = false) : c ≠ x := by
  intro heq
  rw [heq, hx] at hc
  exact absurd hc (by simp)

theorem TRel.symm : ∀ {t t' : List Char}, TRel t t' → TRel t' t := by
  intro t t' h
  induction h with
  | nil => exact TRel.nil
  | same c u u' _ ih => exact TRel.same c u' u ih
  | hrun h h' u u' hl hl' hh hh' _ ih => exact TRel.hrun h' h u' u hl' hl hh' hh ih

theorem midRel_ne_nil (n : Nat) (t t' : List Char) (hrel : MidRel n t t') :
    t ≠ [] ∧ t' ≠ [] := by
  cases hrel with
  | mk h h' u u' _ _ _ _ _ => constructor <;> simp

theorem trel_append_same (xs : List Char) : ∀ t t', TRel t t' →
    TRel (xs ++ t) (xs ++ t') := by
  induction xs with
  | nil => intro t t' h; simpa using h
  | cons c cs ih => intro t t' h; exact TRel.same c _ _ (ih t t' h)

theorem matchLit_qfree_trel (lit : List Char) (hq : ∀ c ∈ lit, c ≠ '"') :
    ∀ t t', TRel t t' →
    (matchLit lit t = none ∧ matchLit lit t' = none) ∨
    (∃ r r', matchLit lit t = some r ∧ matchLit lit t' = some r' ∧ TRel r r') := by
  induction lit with
  | nil =>
    intro t t' hrel
    right
    exact ⟨t, t', rfl, rfl, hrel⟩
  | cons p ps ih =>
    intro t t' hrel
    cases hrel with
    | nil => left; exact ⟨rfl, rfl⟩
    | same c u u' hu =>
      by_cases hpc : p = c
      · subst hpc
        simp only [matchLit, if_pos]
        exact ih (fun a ha => hq a (by simp [ha])) u u' hu
      · left
        constructor <;> simp [matchLit, hpc]
    | hrun h h' u u' hl hl' hh hh' hu =>
      left
      have hp : p ≠ '"' := hq p (by simp)
      constructor <;> simp [matchLit, hp]

theorem matchLit_qend_trel (base : List Char) (hq : ∀ c ∈ base, c ≠ '"') :
    ∀ t t', TRel t t' →
    (matchLit (base ++ ['"']) t = none ∧ matchLit (base ++ ['"']) t' = none) ∨
    (∃ r r', matchLit (base ++ ['"']) t = some r ∧ matchLit (base ++ ['"']) t' = some r' ∧
      (TRel r r' ∨ MidRel 32 r r')) := by
  induction base with
  | nil =>
    intro t t' hrel
    cases hrel with
    | nil => left; exact ⟨rfl, rfl⟩
    | same c u u' hu =>
      by_cases hc : ('"' : Char) = c
      · subst hc
        right
        refine ⟨u, u', ?_, ?_, Or.inl hu⟩ <;> simp [matchLit]
      · left
        constructor <;> simp [matchLit, hc]
    | hrun h h' u u' hl hl' hh hh' hu =>
      right
      refine ⟨h ++ '"' :: u, h' ++ '"' :: u', ?_, ?_,
        Or.inr (MidRel.mk 32 h h' u u' hl hl' hh hh' hu)⟩ <;> simp [matchLit]
  | cons p ps ih =>
    intro t t' hrel
    cases hrel with
    | nil => left; exact ⟨rfl, rfl⟩
    | same c u u' hu =>
      by_cases hpc : p = c
      · subst hpc
        simp only [List.cons_append, matchLit, if_pos]
        exact ih (fun a ha => hq a (by simp [ha])) u u' hu
      · left
        constructor <;> simp [matchLit, hpc]
    | hrun h h' u u' hl hl' hh hh' hu =>
      left
      have hp : p ≠ '"' := hq p (by simp)
      constructor <;> simp [matchLit, hp]

theorem takeWs_trel : ∀ t t', TRel t t' →
    (takeWs t).1 = (takeWs t').1 ∧ TRel (takeWs t).2 (takeWs t').2 := by
  intro t t' hrel
  induction hrel with
  | nil => exact ⟨rfl, TRel.nil⟩
  | same c u u' hu ih =>
    simp only [takeWs]
    by_cases hw : isWs c
    · simp only [hw, if_true]
      exact ⟨by rw [ih.1], ih.2⟩
    · simp only [hw, Bool.false_eq_true, if_false]
      exact ⟨by simp, TRel.same c u u' hu⟩
  | hrun h h' u u' hl hl' hh hh' hu ih =>
    have hqw : isWs '"' = false := by decide
    simp only [takeWs, hqw, Bool.false_eq_true, if_false]
    exact ⟨by simp, TRel.hrun h h' u u' hl hl' hh hh' hu⟩

theorem takeSpaces1_trel (t t' : List Char) (hrel : TRel t t') :
    (takeSpaces1 t = none ∧ takeSpaces1 t' = none) ∨
    (∃ sp r r', takeSpaces1 t = some (sp, r) ∧ takeSpaces1 t' = some (sp, r') ∧
      TRel r r') := by
  obtain ⟨h1, h2⟩ := takeWs_trel t t' hrel
  simp only [takeSpaces1]
  by_cases he : (takeWs t).1.isEmpty
  · left
    rw [if_pos he, if_pos (by rw [← h1]; exact he)]
    exact ⟨rfl, rfl⟩
  · right
    refine ⟨(takeWs t).1, (takeWs t).2, (takeWs t').2, ?_, ?_, h2⟩
    · rw [if_neg he]
    · rw [if_neg (by rw [← h1]; exact he), h1]

theorem takeHex_trel : ∀ (n : Nat) (t t' : List Char), TRel t t' →
    (takeHex n t = none ∧ takeHex n t' = none) ∨
    (∃ h r r', takeHex n t = some (h, r) ∧ takeHex n t' = some (h, r') ∧
      TRel r r') := by
  intro n
  induction n with
  | zero =>
    intro t t' hrel
    right
    exact ⟨[], t, t', rfl, rfl, hrel⟩
  | succ k ih =>
    intro t t' hrel
    cases hrel with
    | nil => left; exact ⟨rfl, rfl⟩
    | same c u u' hu =>
      by_cases hc : isHexCh c
      · rcases ih u u' hu with ⟨h1, h2⟩ | ⟨h, r, r', h1, h2, h3⟩
        · left
          constructor <;> simp [takeHex, hc, h1, h2]
        · right
          exact ⟨c :: h, r, r', by simp [takeHex, hc, h1],
            by simp [takeHex, hc, h2], h3⟩
      · left
        constructor <;> simp [takeHex, hc]
    | hrun h h' u u' hl hl' hh hh' hu =>
      left
      have : isHexCh '"' = false := by decide
      constructor <;> simp [takeHex, this]

theorem takeHex_midrel (t t' : List Char) (hrel : MidRel 32 t t') :
    ∃ h h' r r', takeHex 32 t = some (h, r) ∧ takeHex 32 t' = some (h', r') ∧
      TRel r r' := by
  cases hrel with
  | mk h h' u u' hl hl' hh hh' hu =>
    refine ⟨h, h', '"' :: u, '"' :: u', ?_, ?_, TRel.same '"' u u' hu⟩
    · rw [← hl]; exact takeHex_append h _ hh
    · rw [← hl']; exact takeHex_append h' _ hh'

theorem takeImportDigit_trel (t t' : List Char) (hrel : TRel t t') :
    (takeImportDigit t = none ∧ takeImportDigit t' = none) ∨
    (∃ d r r', takeImportDigit t = some (d, r) ∧ takeImportDigit t' = some (d, r') ∧
      TRel r r') := by
  cases hrel with
  | nil => left; exact ⟨rfl, rfl⟩
  | same c u u' hu =>
    by_cases hc : c = '0' ∨ c = '1'
    · right
      exact ⟨c, u, u', by simp [takeImportDigit, hc], by simp [takeImportDigit, hc], hu⟩
    · left
      constructor <;> simp [takeImportDigit, hc]
  | hrun h h' u u' hl hl' hh hh' hu =>
    left
    have : ¬(('"' : Char) = '0' ∨ ('"' : Char) = '1') := by decide
    constructor <;> simp [takeImportDigit, this]

theorem quoteGt_trel (t t' : List Char) (hrel : TRel t t') :
    (matchLit quoteGt t = none ∧ matchLit quoteGt t' = none) ∨
    (∃ r r', matchLit quoteGt t = some r ∧ matchLit quoteGt t' = some r' ∧
      TRel r r') := by
  cases hrel with
  | nil => left; exact ⟨rfl, rfl⟩
  | same c u u' hu =>
    by_cases hc : ('"' : Char) = c
    · subst hc
      cases hu with
      | nil => left; constructor <;> simp [quoteGt, matchLit]
      | same c2 v v' hv =>
        by_cases hc2 : ('>' : Char) = c2
        · subst hc2
          right
          exact ⟨v, v', by simp [quoteGt, matchLit], by simp [quoteGt, matchLit], hv⟩
        · left
          constructor <;> simp [quoteGt, matchLit, hc2]
      | hrun h h' v v' hl hl' hh hh' hv =>
        left
        have : ('>' : Char) ≠ '"' := by decide
        constructor <;> simp [quoteGt, matchLit, this.symm]
    · left
      constructor <;> simp [quoteGt, matchLit, hc]
  | hrun h h' u u' hl hl' hh hh' hu =>
    left
    obtain ⟨c0, h0, rfl⟩ : ∃ c0 h0, h = c0 :: h0 := by
      cases h with
      | nil => simp at hl
      | cons a as => exact ⟨a, as, rfl⟩
    obtain ⟨c0', h0', rfl⟩ : ∃ c0 h0, h' = c0 :: h0 := by
      cases h' with
      | nil => simp at hl'
      | cons a as => exact ⟨a, as, rfl⟩
    have hg0 : ('>' : Char) ≠ c0 := by
      have := hex_ne c0 (hh c0 (by simp)) '>' (by decide)
      exact this.symm
    have hg0' : ('>' : Char) ≠ c0' := by
      have := hex_ne c0' (hh' c0' (by simp)) '>' (by decide)
      exact this.symm
    constructor <;> simp [quoteGt, matchLit, hg0, hg0']

theorem takeSpaces1_hexhead (h : List Char) (hne : h ≠ [])
    (hh : ∀ c ∈ h, isHexCh c = true) (s : List Char) :
    takeSpaces1 (h ++ s) = none := by
  obtain ⟨c, h2, rfl⟩ := List.exists_cons_of_ne_nil hne
  have hws : isWs c = false := hex_not_ws c (hh c (by simp))
  simp [takeSpaces1, takeWs, hws]

theorem digitQuote_mid (h : List Char) (hl : h.length = 32)
    (hh : ∀ c ∈ h, isHexCh c = true) (s : List Char) :
    takeImportDigit (h ++ s) = none ∨
    (∃ d r, takeImportDigit (h ++ s) = some (d, r) ∧ matchLit quoteGt r = none) := by
  obtain ⟨c0, h1, rfl⟩ : ∃ c0 h1, h = c0 :: h1 := by
    cases h with
    | nil => simp at hl
    | cons a as => exact ⟨a, as, rfl⟩
  obtain ⟨c1, h2, rfl⟩ : ∃ c1 h2, h1 = c1 :: h2 := by
    cases h1 with
    | nil => simp at hl
    | cons a as => exact ⟨a, as, rfl⟩
  by_cases hc0 : c0 = '0' ∨ c0 = '1'
  · right
    refine ⟨c0, c1 :: (h2 ++ s), by simp [takeImportDigit, hc0], ?_⟩
    have : ('"' : Char) ≠ c1 := by
      have := hex_ne c1 (hh c1 (by simp)) '"' (by decide)
      exact this.symm
    simp [quoteGt, matchLit, this]
  · left
    simp [takeImportDigit, hc0]

theorem closeLit_eq : closeLit = ['<', '/', 'F', 'i', 'l', 'e', '>'] := rfl

theorem startsWithL_close_of_ne (c : Char) (u : List Char) (hne : c ≠ '<') :
    startsWithL closeLit (c :: u) = false := by
  rw [closeLit_eq]
  have hlt : ('<' : Char) ≠ c := fun h => hne h.symm
  simp [startsWithL, hlt]

theorem startsWithL_qfree_trel (lit : List Char) (hq : ∀ c ∈ lit, c ≠ '"') :
    ∀ t t', TRel t t' → startsWithL lit t = startsWithL lit t' := by
  induction lit with
  | nil => intro t t' _; rfl
  | cons p ps ih =>
    intro t t' hrel
    cases hrel with
    | nil => rfl
    | same c u u' hu =>
      simp only [startsWithL]
      rw [ih (fun a ha => hq a (by simp [ha])) u u' hu]
    | hrun h h' u u' hl hl' hh hh' hu =>
      have hp : p ≠ '"' := hq p (by simp)
      simp [startsWithL, hp]

theorem startsWithL_close_midrel (n : Nat) (t t' : List Char)
    (hrel : MidRel n t t') :
    startsWithL closeLit t = false ∧ startsWithL closeLit t' = false := by
  cases hrel with
  | mk h h' u u' hl hl' hh hh' hu =>
    constructor
    · cases h with
      | nil => exact startsWithL_close_of_ne '"' u (by decide)
      | cons a as =>
        exact startsWithL_close_of_ne a _ (hex_ne a (hh a (by simp)) '<' (by decide))
    · cases h' with
      | nil => exact startsWithL_close_of_ne '"' u' (by decide)
      | cons a as =>
        exact startsWithL_close_of_ne a _ (hex_ne a (hh' a (by simp)) '<' (by decide))

theorem trel_drop_of_startsWith (lit : List Char) (hq : ∀ c ∈ lit, c ≠ '"') :
    ∀ t t', TRel t t' → startsWithL lit t = true →
    TRel (t.drop lit.length) (t'.drop lit.length) := by
  induction lit with
  | nil => intro t t' h _; simpa using h
  | cons p ps ih =>
    intro t t' hrel hs
    cases hrel with
    | nil => simp [startsWithL] at hs
    | same c u u' hu =>
      simp only [startsWithL, Bool.and_eq_true, decide_eq_true_eq] at hs
      simp only [List.length_cons, List.drop_succ_cons]
      exact ih (fun a ha => hq a (by simp [ha])) u u' hu hs.2
    | hrun h h' u u' hl hl' hh hh' hu =>
      simp only [startsWithL, Bool.and_eq_true, decide_eq_true_eq] at hs
      exact absurd hs.1 (hq p (by simp))

theorem pathClose_nil : pathClose [] = none := by
  rw [pathClose]
  rw [show startsWithL closeLit [] = false by decide]
  simp

theorem pathClose_true (t : List Char) (h : startsWithL closeLit t = true) :
    pathClose t = some ([], t.drop 7) := by
  cases t with
  | nil =>
    rw [show startsWithL closeLit [] = false by decide] at h
    simp at h
  | cons c cs =>
    rw [pathClose, if_pos h]

theorem pathClose_cons_false (c : Char) (cs : List Char)
    (h : startsWithL closeLit (c :: cs) = false) (hnl : c ≠ '\n') :
    pathClose (c :: cs) = (pathClose cs).map (fun p => (c :: p.1, p.2)) := by
  rw [pathClose, h]
  simp [hnl]

theorem pathClose_cons_newline (cs : List Char)
    (h : startsWithL closeLit ('\n' :: cs) = false) :
    pathClose ('\n' :: cs) = none := by
  rw [pathClose, h]
  simp

theorem pathClose_prel : ∀ (N : Nat) (t t' : List Char), t.length ≤ N →
    (TRel t t' ∨ ∃ n, MidRel n t t') →
    (pathClose t = none ∧ pathClose t' = none) ∨
    (∃ p p' r r', pathClose t = some (p, r) ∧ pathClose t' = some (p', r') ∧
      TRel r r') := by
  intro N
  induction N with
  | zero =>
    intro t t' hlen hrel
    have ht : t = [] := List.eq_nil_of_length_eq_zero (Nat.le_zero.mp hlen)
    subst ht
    rcases hrel with htr | ⟨n, hmid⟩
    · have ht' : t' = [] := by cases htr; rfl
      subst ht'
      left
      exact ⟨pathClose_nil, pathClose_nil⟩
    · exact absurd rfl (midRel_ne_nil n [] t' hmid).1
  | succ N ih =>
    intro t t' hlen hrel
    have hchk : startsWithL closeLit t = startsWithL closeLit t' := by
      rcases hrel with htr | ⟨n, hmid⟩
      · exact startsWithL_qfree_trel closeLit (by decide) t t' htr
      · obtain ⟨ha, hb⟩ := startsWithL_close_midrel n t t' hmid
        rw [ha, hb]
    by_cases hcl : startsWithL closeLit t = true
    · rcases hrel with htr | ⟨n, hmid⟩
      · right
        refine ⟨[], [], t.drop 7, t'.drop 7,
          pathClose_true t hcl, pathClose_true t' (by rw [← hchk]; exact hcl), ?_⟩
        have := trel_drop_of_startsWith closeLit (by decide) t t' htr hcl
        simpa using this
      · exact absurd hcl (by simp [(startsWithL_close_midrel n t t' hmid).1])
    · have hclf : startsWithL closeLit t = false := by
        cases hx : startsWithL closeLit t
        · rfl
        · exact absurd hx hcl
      have hclf' : startsWithL closeLit t' = false := by rw [← hchk]; exact hclf
      rcases hrel with htr | ⟨n, hmid⟩
      · cases htr with
        | nil =>
          left
          exact ⟨pathClose_nil, pathClose_nil⟩
        | same c u u' hu =>
          by_cases hnl : c = '\n'
          · subst hnl
            left
            exact ⟨pathClose_cons_newline u hclf, pathClose_cons_newline u' hclf'⟩
          · rw [pathClose_cons_false c u hclf hnl, pathClose_cons_false c u' hclf' hnl]
            rcases ih u u' (by simp only [List.length_cons] at hlen; omega)
                (Or.inl hu) with ⟨ha, hb⟩ | ⟨p, p', r, r', ha, hb, hc⟩
            · left
              rw [ha, hb]
              exact ⟨rfl, rfl⟩
            · right
              exact ⟨c :: p, c :: p', r, r', by rw [ha]; rfl, by rw [hb]; rfl, hc⟩
        | hrun h h' u u' hl hl' hh hh' hu =>
          have hqnl : ('"' : Char) ≠ '\n' := by decide
          rw [pathClose_cons_false '"' _ hclf hqnl, pathClose_cons_false '"' _ hclf' hqnl]
          rcases ih (h ++ '"' :: u) (h' ++ '"' :: u')
              (by simp only [List.length_cons] at hlen; omega)
              (Or.inr ⟨32, MidRel.mk 32 h h' u u' hl hl' hh hh' hu⟩) with
            ⟨ha, hb⟩ | ⟨p, p', r, r', ha, hb, hc⟩
          · left
            rw [ha, hb]
            exact ⟨rfl, rfl⟩
          · right
            exact ⟨'"' :: p, '"' :: p', r, r', by rw [ha]; rfl, by rw [hb]; rfl, hc⟩
      · cases hmid with
        | mk h h' u u' hl hl' hh hh' hu =>
          cases h with
          | nil =>
            have hn0 : h' = [] := by
              have h0 : n = 0 := by simpa using hl.symm
              exact List.eq_nil_of_length_eq_zero (by rw [hl', h0])
            subst hn0
            rw [show (([] : List Char) ++ '"' :: u) = '"' :: u by simp] at hclf hlen ⊢
            rw [show (([] : List Char) ++ '"' :: u') = '"' :: u' by simp] at hclf' ⊢
            rw [pathClose_cons_false '"' u hclf (by decide),
              pathClose_cons_false '"' u' hclf' (by decide)]
            rcases ih u u' (by simp only [List.length_cons] at hlen; omega)
                (Or.inl hu) with ⟨ha, hb⟩ | ⟨p, p', r, r', ha, hb, hc⟩
            · left
              rw [ha, hb]
              exact ⟨rfl, rfl⟩
            · right
              exact ⟨'"' :: p, '"' :: p', r, r', by rw [ha]; rfl, by rw [hb]; rfl, hc⟩
          | cons a as =>
            obtain ⟨a', as', rfl⟩ : ∃ a2 as2, h' = a2 :: as2 := by
              cases h' with
              | nil =>
                exfalso
                rw [← hl] at hl'
                simp at hl'
              | cons x xs => exact ⟨x, xs, rfl⟩
            have ha : isHexCh a = true := hh a (by simp)
            have ha' : isHexCh a' = true := hh' a' (by simp)
            have hnla : a ≠ '\n' := hex_ne a ha '\n' (by decide)
            have hnla' : a' ≠ '\n' := hex_ne a' ha' '\n' (by decide)
            rw [show ((a :: as) ++ '"' :: u) = a :: (as ++ '"' :: u) by simp] at hclf hlen ⊢
            rw [show ((a' :: as') ++ '"' :: u') = a' :: (as' ++ '"' :: u') by simp] at hclf' ⊢
            rw [pathClose_cons_false a _ hclf hnla, pathClose_cons_false a' _ hclf' hnla']
            have hlen2 : (as ++ '"' :: u).length ≤ N := by
              simp only [List.length_cons] at hlen
              omega
            have hlas : as'.length = as.length := by
              rw [← hl] at hl'
              simpa using hl'
            rcases ih (as ++ '"' :: u) (as' ++ '"' :: u') hlen2
                (Or.inr ⟨as.length, MidRel.mk as.length as as' u u' rfl hlas
                  (fun x hx => hh x (by simp [hx])) (fun x hx => hh' x (by simp [hx])) hu⟩) with
              ⟨hc1, hc2⟩ | ⟨p, p', r, r', hc1, hc2, hc3⟩
            · left
              rw [hc1, hc2]
              exact ⟨rfl, rfl⟩
            · right
              exact ⟨a :: p, a' :: p', r, r', by rw [hc1]; rfl, by rw [hc2]; rfl, hc3⟩

theorem pathScan_trel (t t' : List Char) (hrel : TRel t t') :
    (pathScan t = none ∧ pathScan t' = none) ∨
    (∃ p p' r r', pathScan t = some (p, r) ∧ pathScan t' = some (p', r') ∧
      TRel r r') := by
  cases hrel with
  | nil => left; exact ⟨rfl, rfl⟩
  | same c u u' hu =>
    by_cases hnl : c = '\n'
    · subst hnl
      left
      constructor <;> simp [pathScan]
    · rcases pathClose_prel u.length u u' le_rfl (Or.inl hu) with
        ⟨ha, hb⟩ | ⟨p, p', r, r', ha, hb, hc⟩
      · left
        constructor <;> simp [pathScan, hnl, ha, hb]
      · right
        exact ⟨c :: p, c :: p', r, r', by simp [pathScan, hnl, ha],
          by simp [pathScan, hnl, hb], hc⟩
  | hrun h h' u u' hl hl' hh hh' hu =>
    have hqnl : ('"' : Char) ≠ '\n' := by decide
    rcases pathClose_prel (h ++ '"' :: u).length (h ++ '"' :: u) (h' ++ '"' :: u')
        le_rfl (Or.inr ⟨32, MidRel.mk 32 h h' u u' hl hl' hh hh' hu⟩) with
      ⟨ha, hb⟩ | ⟨p, p', r, r', ha, hb, hc⟩
    · left
      constructor <;> simp [pathScan, hqnl, ha, hb]
    · right
      exact ⟨'"' :: p, '"' :: p', r, r', by simp [pathScan, hqnl, ha],
        by simp [pathScan, hqnl, hb], hc⟩

/-- If the anchored matcher succeeds on a text, it succeeds on any
`TRel`-related text. -/
theorem matchAt_some_trel (t t' : List Char) (hrel : TRel t t') (m : FileMatch)
    (r : List Char) (hm : matchAt t = some (m, r)) :
    ∃ m' r', matchAt t' = some (m', r') := by
  obtain ⟨t1, sp1, t2, t3, h, t4, t5, sp2, t6, t7, d, t8, t9, p, t10,
    h1, h2, h3, h4, h5, h6, h7, h8, h9, h10, _, _⟩ := matchAt_stages t m r hm
  -- stage 1: `<File`
  obtain ⟨r1', e1', hrel1⟩ : ∃ r1', matchLit fileLit t' = some r1' ∧ TRel t1 r1' := by
    rcases matchLit_qfree_trel fileLit (by decide) t t' hrel with ⟨hn, _⟩ |
      ⟨r1, r1', e1, e1', hrelx⟩
    · rw [h1] at hn; exact absurd hn (by simp)
    · rw [h1] at e1
      injection e1 with he
      exact ⟨r1', e1', by rw [he]; exact hrelx⟩
  -- stage 2: `\s+`
  obtain ⟨r2', e2', hrel2⟩ : ∃ r2', takeSpaces1 r1' = some (sp1, r2') ∧ TRel t2 r2' := by
    rcases takeSpaces1_trel t1 r1' hrel1 with ⟨hn, _⟩ | ⟨sp, r2, r2', e2, e2', hrelx⟩
    · rw [h2] at hn; exact absurd hn (by simp)
    · rw [h2] at e2
      simp only [Option.some.injEq, Prod.mk.injEq] at e2
      obtain ⟨hsp, ht2⟩ := e2
      exact ⟨r2', by rw [← hsp] at e2'; exact e2', by rw [ht2]; exact hrelx⟩
  -- stage 3: `md5="`
  obtain ⟨r3', e3', hrel3⟩ : ∃ r3', matchLit md5Lit r2' = some r3' ∧
      (TRel t3 r3' ∨ MidRel 32 t3 r3') := by
    have hml : md5Lit = "md5=".data ++ ['"'] := rfl
    rcases matchLit_qend_trel "md5=".data (by decide) t2 r2' hrel2 with ⟨hn, _⟩ |
      ⟨r3, r3', e3, e3', hrelx⟩
    · rw [← hml] at hn
      rw [h3] at hn; exact absurd hn (by simp)
    · rw [← hml] at e3 e3'
      rw [h3] at e3
      injection e3 with he
      exact ⟨r3', e3', by rw [he]; exact hrelx⟩
  -- stage 4: 32 hex characters
  obtain ⟨hx', r4', e4', hrel4⟩ : ∃ hx' r4', takeHex 32 r3' = some (hx', r4') ∧
      TRel t4 r4' := by
    rcases hrel3 with htr | hmid
    · rcases takeHex_trel 32 t3 r3' htr with ⟨hn, _⟩ | ⟨hx, r4, r4', e4, e4', hrelx⟩
      · rw [h4] at hn; exact absurd hn (by simp)
      · rw [h4] at e4
        simp only [Option.some.injEq, Prod.mk.injEq] at e4
        obtain ⟨_, ht4⟩ := e4
        exact ⟨hx, r4', e4', by rw [ht4]; exact hrelx⟩
    · obtain ⟨hx, hx', r4, r4', e4, e4', hrelx⟩ := takeHex_midrel t3 r3' hmid
      rw [h4] at e4
      simp only [Option.some.injEq, Prod.mk.injEq] at e4
      obtain ⟨_, ht4⟩ := e4
      exact ⟨hx', r4', e4', by rw [ht4]; exact hrelx⟩
  -- stage 5: `"`
  obtain ⟨r5', e5', hrel5⟩ : ∃ r5', matchLit ['"'] r4' = some r5' ∧
      (TRel t5 r5' ∨ MidRel 32 t5 r5') := by
    rcases matchLit_qend_trel [] (by simp) t4 r4' hrel4 with ⟨hn, _⟩ |
      ⟨r5, r5', e5, e5', hrelx⟩
    · simp only [List.nil_append] at hn
      rw [h5] at hn; exact absurd hn (by simp)
    · simp only [List.nil_append] at e5 e5'
      rw [h5] at e5
      injection e5 with he
      exact ⟨r5', e5', by rw [he]; exact hrelx⟩
  -- stage 6: `\s+` (kills the mid-run alternative)
  obtain ⟨r6', e6', hrel6⟩ : ∃ r6', takeSpaces1 r5' = some (sp2, r6') ∧ TRel t6 r6' := by
    rcases hrel5 with htr | hmid
    · rcases takeSpaces1_trel t5 r5' htr with ⟨hn, _⟩ | ⟨sp, r6, r6', e6, e6', hrelx⟩
      · rw [h6] at hn; exact absurd hn (by simp)
      · rw [h6] at e6
        simp only [Option.some.injEq, Prod.mk.injEq] at e6
        obtain ⟨hsp, ht6⟩ := e6
        exact ⟨r6', by rw [← hsp] at e6'; exact e6', by rw [ht6]; exact hrelx⟩
    · exfalso
      cases hmid with
      | mk h5m h5m' u5 u5' hl5 hl5' hh5 hh5' hu5 =>
        have hkill : takeSpaces1 (h5m ++ '"' :: u5) = none :=
          takeSpaces1_hexhead h5m
            (by intro hz; rw [hz] at hl5; simp at hl5) hh5 _
        rw [h6] at hkill
        simp at hkill
  -- stage 7: `import="`
  obtain ⟨r7', e7', hrel7⟩ : ∃ r7', matchLit importLit r6' = some r7' ∧
      (TRel t7 r7' ∨ MidRel 32 t7 r7') := by
    have hml : importLit = "import=".data ++ ['"'] := rfl
    rcases matchLit_qend_trel "import=".data (by decide) t6 r6' hrel6 with ⟨hn, _⟩ |
      ⟨r7, r7', e7, e7', hrelx⟩
    · rw [← hml] at hn
      rw [h7] at hn; exact absurd hn (by simp)
    · rw [← hml] at e7 e7'
      rw [h7] at e7
      injection e7 with he
      exact ⟨r7', e7', by rw [he]; exact hrelx⟩
  -- stages 8 and 9: `[01]` then `">` (kills the mid-run alternative)
  obtain ⟨r8', r9', e8', e9', hrel9⟩ : ∃ r8' r9', takeImportDigit r7' = some (d, r8') ∧
      matchLit quoteGt r8' = some r9' ∧ TRel t9 r9' := by
    rcases hrel7 with htr | hmid
    · obtain ⟨r8', e8', hrel8⟩ : ∃ r8', takeImportDigit r7' = some (d, r8') ∧
          TRel t8 r8' := by
        rcases takeImportDigit_trel t7 r7' htr with ⟨hn, _⟩ |
          ⟨d0, r8, r8', e8, e8', hrelx⟩
        · rw [h8] at hn; exact absurd hn (by simp)
        · rw [h8] at e8
          simp only [Option.some.injEq, Prod.mk.injEq] at e8
          obtain ⟨hd0, ht8⟩ := e8
          exact ⟨r8', by rw [← hd0] at e8'; exact e8', by rw [ht8]; exact hrelx⟩
      rcases quoteGt_trel t8 r8' hrel8 with ⟨hn, _⟩ | ⟨r9, r9', e9, e9', hrelx⟩
      · rw [h9] at hn; exact absurd hn (by simp)
      · rw [h9] at e9
        injection e9 with he
        exact ⟨r8', r9', e8', e9', by rw [he]; exact hrelx⟩
    · exfalso
      cases hmid with
      | mk h7m h7m' u7 u7' hl7 hl7' hh7 hh7' hu7 =>
        rcases digitQuote_mid h7m hl7 hh7 ('"' :: u7) with hnone | ⟨d0, r0, he8, hq9⟩
        · rw [h8] at hnone; simp at hnone
        · rw [h8] at he8
          simp only [Option.some.injEq, Prod.mk.injEq] at he8
          obtain ⟨_, ht8⟩ := he8
          rw [← ht8] at hq9
          rw [h9] at hq9
          simp at hq9
  -- stage 10: the lazy path
  obtain ⟨p', r10', e10'⟩ : ∃ p' r10', pathScan r9' = some (p', r10') := by
    rcases pathScan_trel t9 r9' hrel9 with ⟨hn, _⟩ | ⟨p0, p', r0, r10', e10, e10', _⟩
    · rw [h10] at hn; exact absurd hn (by simp)
    · exact ⟨p', r10', e10'⟩
  exact ⟨_, _, matchAt_of_stages t' r1' sp1 r2' r3' hx' r4' r5' sp2 r6' r7' r8' r9'
    p' r10' d e1' e2' e3' e4' e5' e6' e7' e8' e9' e10'⟩

/-- Failure of the anchored matcher transfers along `TRel`. -/
theorem matchAt_none_trel (t t' : List Char) (hrel : TRel t t')
    (hn : matchAt t = none) : matchAt t' = none := by
  cases hm' : matchAt t' with
  | none => rfl
  | some pr =>
    obtain ⟨m2, r2, h2⟩ := matchAt_some_trel t' t (TRel.symm hrel) pr.1 pr.2
      (by rw [hm'])
    rw [h2] at hn
    exact absurd hn (by simp)

theorem mStr_ne_nil (m : FileMatch) (hwf : WF m) : mStr m ≠ [] := by
  intro hz
  have hlen : (mStr m).length = 0 := by rw [hz]; rfl
  rw [mStr] at hlen
  simp only [List.length_append, hwf.g2len] at hlen
  omega

theorem scanPieces_pos' (l : List Char) (m : FileMatch) (r : List Char)
    (hne : l ≠ []) (hm : matchAt l = some (m, r)) :
    scanPieces l = .entry m :: scanPieces r := by
  obtain ⟨c, cs, rfl⟩ := List.exists_cons_of_ne_nil hne
  exact scanPieces_pos c cs m r hm

/-- Related piece lists render to `TRel`-related texts. -/
theorem trel_renderP : ∀ (ps ps' : List Piece), List.Forall₂ PieceRel ps ps' →
    TRel (renderP ps) (renderP ps') := by
  intro ps ps' hrel
  induction hrel with
  | nil => exact TRel.nil
  | @cons p p' as as' hp hrest ih =>
    rw [renderP_cons, renderP_cons]
    cases hp with
    | raw c => exact TRel.same c _ _ ih
    | entry m m' hwf hwf' he1 he3 he4 he5 =>
      obtain ⟨sp, hspne, hspws, hg1⟩ := hwf.g1s
      obtain ⟨sp2, d, hsp2ne, hsp2ws, hd01, hg3⟩ := hwf.g3s
      have hshape : ∀ (g2 R : List Char),
          (fileLit ++ sp ++ md5Lit) ++ g2 ++ ('"' :: (sp2 ++ importLit ++ [d, '"', '>'])) ++
            m.g4 ++ m.g5 ++ R =
          (fileLit ++ sp ++ "md5=".data) ++
            ('"' :: (g2 ++ '"' :: ((sp2 ++ importLit ++ [d, '"', '>']) ++
              (m.g4 ++ (m.g5 ++ R))))) := by
        intro g2 R
        rw [show md5Lit = "md5=".data ++ ['"'] from rfl]
        simp [List.append_assoc]
      have hm1 : pieceText (Piece.entry m) ++ renderP as =
          (fileLit ++ sp ++ "md5=".data) ++
            ('"' :: (m.g2 ++ '"' :: ((sp2 ++ importLit ++ [d, '"', '>']) ++
              (m.g4 ++ (m.g5 ++ renderP as))))) := by
        rw [show pieceText (Piece.entry m) = mStr m from rfl, mStr, hg1, hg3]
        rw [← hshape m.g2 (renderP as)]
      have hm2 : pieceText (Piece.entry m') ++ renderP as' =
          (fileLit ++ sp ++ "md5=".data) ++
            ('"' :: (m'.g2 ++ '"' :: ((sp2 ++ importLit ++ [d, '"', '>']) ++
              (m.g4 ++ (m.g5 ++ renderP as'))))) := by
        rw [show pieceText (Piece.entry m') = mStr m' from rfl, mStr, he1, he3, he4, he5,
          hg1, hg3]
        rw [← hshape m'.g2 (renderP as')]
      rw [hm1, hm2]
      apply trel_append_same
      exact TRel.hrun m.g2 m'.g2 _ _ hwf.g2len hwf'.g2len hwf.g2hex hwf'.g2hex
        (trel_append_same (sp2 ++ importLit ++ [d, '"', '>']) _ _
          (trel_append_same m.g4 _ _ (trel_append_same m.g5 _ _ ih)))

/-- Re-scan stability: if a piece list is a valid scan of its own
rendering, any related piece list is a valid scan of its rendering.  In
particular the rewritten document parses into exactly the rewritten
entries. -/
theorem scan_of_rel : ∀ (ps ps' : List Piece), List.Forall₂ PieceRel ps ps' →
    scanPieces (renderP ps) = ps → scanPieces (renderP ps') = ps' := by
  intro ps ps' hrel
  induction hrel with
  | nil => intro _; rw [renderP_nil, scanPieces_nil]
  | @cons p p' as as' hp hrest ih =>
    intro hscan
    cases hp with
    | raw c =>
      rw [renderP_cons] at hscan ⊢
      rw [show pieceText (Piece.raw c) = [c] from rfl] at hscan ⊢
      rw [List.singleton_append] at hscan ⊢
      have hnone : matchAt (c :: renderP as) = none := by
        cases hma : matchAt (c :: renderP as) with
        | none => rfl
        | some pr =>
          rw [scanPieces_pos c _ pr.1 pr.2 (by rw [hma])] at hscan
          injection hscan with hhead _
          exact absurd hhead (by simp)
      have htail : scanPieces (renderP as) = as := by
        rw [scanPieces_neg c _ hnone] at hscan
        injection hscan
      have hnone' : matchAt (c :: renderP as') = none :=
        matchAt_none_trel _ _ (TRel.same c _ _ (trel_renderP as as' hrest)) hnone
      rw [scanPieces_neg c _ hnone', ih htail]
    | entry m m' hwf hwf' he1 he3 he4 he5 =>
      rw [renderP_cons] at hscan ⊢
      rw [show pieceText (Piece.entry m) = mStr m from rfl] at hscan
      rw [show pieceText (Piece.entry m') = mStr m' from rfl]
      have hold : matchAt (mStr m ++ renderP as) = some (m, renderP as) :=
        matchAt_complete m hwf _
      rw [scanPieces_pos' _ _ _
        (fun hz => mStr_ne_nil m hwf (List.append_eq_nil.mp hz).1) hold] at hscan
      have htail : scanPieces (renderP as) = as := by
        injection hscan
      have hnew : matchAt (mStr m' ++ renderP as') = some (m', renderP as') :=
        matchAt_complete m' hwf' _
      rw [scanPieces_pos' _ _ _
        (fun hz => mStr_ne_nil m' hwf' (List.append_eq_nil.mp hz).1) hnew, ih htail]

/-! ### Decomposition of `mainRun` and packaged consequences -/

theorem mainRun_none (w : World) (hman : w.manifest = none) :
    mainRun w = ⟨true, w, [], false, 0⟩ := by
  simp only [mainRun, hman]

theorem mainRun_fatal (w : World) (text : String) (out : List String)
    (hman : w.manifest = some text)
    (hpp : processPieces w.files (scanPieces text.data) 0 [] = .fatal out) :
    mainRun w = ⟨true, w, out, false, 0⟩ := by
  simp only [mainRun, hman, hpp]

theorem mainRun_some (w : World) (text : String) (T : List Char) (u : Nat)
    (out : List String) (hman : w.manifest = some text)
    (hpp : processPieces w.files (scanPieces text.data) 0 [] = .done T u out) :
    mainRun w = if u ≠ 0 then
      ⟨false, ⟨some (String.mk T), w.files⟩,
        out ++ ["Updated " ++ toString u ++ " hash(es)."], true, u⟩
    else ⟨false, w, out ++ ["All hashes up to date."], false, 0⟩ := by
  simp only [mainRun, hman, hpp]

/-- Re-scanning the rewritten document recovers the rewritten pieces. -/
theorem scan_mapPieces (files : String → FileState) (l : List Char) :
    scanPieces (renderP (mapPieces files (scanPieces l))) =
      mapPieces files (scanPieces l) := by
  apply scan_of_rel (scanPieces l) (mapPieces files (scanPieces l))
    (forall2_pieceRel_mapPieces files _ (scan_entries_wf l))
  rw [renderP_scan]

theorem mem_mapPieces (files : String → FileState) (ps : List Piece)
    (m : FileMatch) (hm : Piece.entry m ∈ mapPieces files ps) :
    ∃ m0, Piece.entry m0 ∈ ps ∧ mapPiece files (Piece.entry m0) = Piece.entry m := by
  simp only [mapPieces, List.mem_map] at hm
  obtain ⟨p, hp, hmp⟩ := hm
  cases p with
  | raw c => simp [mapPiece] at hmp
  | entry m0 => exact ⟨m0, hp, hmp⟩

/-! ### Concrete evaluation helpers

`chunksOf64`, `pathClose` and `scanPieces` are defined by well-founded
recursion, so concrete runs are evaluated through their equations and the
completeness of the matcher rather than by kernel reduction alone. -/

theorem chunksOf64_nil : chunksOf64 [] = [] := by
  rw [chunksOf64.eq_def]
  simp

theorem chunksOf64_short (l : List Nat) (hne : l ≠ []) (hlen : l.length ≤ 64) :
    chunksOf64 l = [l] := by
  rw [chunksOf64.eq_def, dif_neg hne, List.take_of_length_le hlen,
    List.drop_eq_nil_of_le hlen, chunksOf64_nil]

set_option maxRecDepth 40000 in
set_option maxHeartbeats 1000000 in
theorem md5U_nil : md5Upper [] = "D41D8CD98F00B204E9800998ECF8427E" := by
  have h : chunksOf64 (md5Pad []) = [md5Pad []] :=
    chunksOf64_short _ (by decide) (by decide)
  simp only [md5Upper, md5Hex, md5Digest, h]
  decide

set_option maxRecDepth 40000 in
set_option maxHeartbeats 1000000 in
theorem md5U_a : md5Upper [97] = "0CC175B9C0F1B6A831C399E269772661" := by
  have h : chunksOf64 (md5Pad [97]) = [md5Pad [97]] :=
    chunksOf64_short _ (by decide) (by decide)
  simp only [md5Upper, md5Hex, md5Digest, h]
  decide

theorem wf_m1 : WF m1 :=
  { g1s := ⟨[' '], by decide, by decide, by decide⟩
    g2len := by decide
    g2hex := by decide
    g3s := ⟨[' '], '0', by decide, by decide, Or.inl rfl, by decide⟩
    g4ne := by decide
    g4nl := by decide
    g4nc := by
      intro j h1 h2
      have hlen : m1.g4.length = 1 := by decide
      omega
    g5c := by decide }

theorem wf_mY : WF mY :=
  { g1s := ⟨[' '], by decide, by decide, by decide⟩
    g2len := by decide
    g2hex := by decide
    g3s := ⟨[' '], '1', by decide, by decide, Or.inr rfl, by decide⟩
    g4ne := by decide
    g4nl := by decide
    g4nc := by
      intro j h1 h2
      have hlen : mY.g4.length = 1 := by decide
      omega
    g5c := by decide }

theorem wf_mX : WF mX :=
  { g1s := ⟨[' '], by decide, by decide, by decide⟩
    g2len := by decide
    g2hex := by decide
    g3s := ⟨[' '], '0', by decide, by decide, Or.inl rfl, by decide⟩
    g4ne := by decide
    g4nl := by decide
    g4nc := by
      intro j h1 h2
      have hlen : mX.g4.length = 1 := by decide
      omega
    g5c := by decide }

theorem wf_mN : WF mN :=
  { g1s := ⟨[' '], by decide, by decide, by decide⟩
    g2len := by decide
    g2hex := by decide
    g3s := ⟨[' '], '1', by decide, by decide, Or.inr rfl, by decide⟩
    g4ne := by decide
    g4nl := by decide
    g4nc := by
      intro j h1 h2
      have hlen : mN.g4.length = 4 := by decide
      rw [hlen] at h2
      interval_cases j <;> decide
    g5c := by decide }

theorem scan_t1 : scanPieces t1doc.data = [Piece.entry m1] := by
  have hd : t1doc.data = mStr m1 ++ [] := by decide
  rw [hd, scanPieces_pos' _ m1 [] (by decide) (matchAt_complete m1 wf_m1 []),
    scanPieces_nil]

theorem scan_t2 : scanPieces t2doc.data = [Piece.entry mY, Piece.entry mX] := by
  have hd : t2doc.data = mStr mY ++ (mStr mX ++ []) := by decide
  rw [hd, scanPieces_pos' _ mY (mStr mX ++ []) (by decide)
      (matchAt_complete mY wf_mY (mStr mX ++ [])),
    scanPieces_pos' _ mX [] (by decide) (matchAt_complete mX wf_mX []),
    scanPieces_nil]

theorem scan_t8 : scanPieces t8doc.data = [Piece.entry mX, Piece.entry mN] := by
  have hd : t8doc.data = mStr mX ++ (mStr mN ++ []) := by decide
  rw [hd, scanPieces_pos' _ mX (mStr mN ++ []) (by decide)
      (matchAt_complete mX wf_mX (mStr mN ++ [])),
    scanPieces_pos' _ mN [] (by decide) (matchAt_complete mN wf_mN []),
    scanPieces_nil]

/-- A missing file: the MISSING line is printed and the region is returned
unchanged, counter untouched (lines 24-26). -/
theorem rm_missing_gen (files : String → FileState) (m : FileMatch) (u : Nat)
    (out : List String) (hmiss : files (String.mk m.g4) = .missing) :
    replaceMatch files m u out =
      some (mStr m, u, out ++ ["  MISSING: " ++ String.mk m.g4]) := by
  simp only [replaceMatch, hmiss]

theorem rm_m1 : replaceMatch w1.files m1 0 [] = some (mStr m1, 0, []) := by
  have hf : w1.files (String.mk m1.g4) = FileState.readable [] := by decide
  simp only [replaceMatch, hf, md5U_nil]
  decide

theorem rm_mY : replaceMatch w2.files mY 0 [] =
    some (mY.g1 ++ "0CC175B9C0F1B6A831C399E269772661".data ++ mY.g3 ++ mY.g4 ++ mY.g5,
      0, []) := by
  have hf : w2.files (String.mk mY.g4) = FileState.readable [97] := by decide
  simp only [replaceMatch, hf, md5U_a]
  decide

theorem rm_mX : replaceMatch w2.files mX 0 [] =
    some (mX.g1 ++ "D41D8CD98F00B204E9800998ECF8427E".data ++ mX.g3 ++ mX.g4 ++ mX.g5,
      1, ["  a: 00000000000000000000000000000000 -> D41D8CD98F00B204E9800998ECF8427E"]) := by
  have hf : w2.files (String.mk mX.g4) = FileState.readable [] := by decide
  simp only [replaceMatch, hf, md5U_nil]
  decide

theorem rm_mX8 : replaceMatch w8.files mX 0 [] =
    some (mX.g1 ++ "D41D8CD98F00B204E9800998ECF8427E".data ++ mX.g3 ++ mX.g4 ++ mX.g5,
      1, ["  a: 00000000000000000000000000000000 -> D41D8CD98F00B204E9800998ECF8427E"]) := by
  have hf : w8.files (String.mk mX.g4) = FileState.readable [] := by decide
  simp only [replaceMatch, hf, md5U_nil]
  decide

theorem mainRun_w1 : mainRun w1 = ⟨false, w1, ["All hashes up to date."], false, 0⟩ := by
  have hpp : processPieces w1.files (scanPieces t1doc.data) 0 [] =
      SubOutcome.done (mStr m1 ++ []) 0 [] := by
    rw [scan_t1]
    simp only [processPieces, rm_m1]
  rw [mainRun_some w1 t1doc (mStr m1 ++ []) 0 [] rfl hpp, if_neg (by decide)]
  rfl

theorem mainRun_w2 : mainRun w2 =
    ⟨false, ⟨some t2res, w2.files⟩,
     ["  a: 00000000000000000000000000000000 -> D41D8CD98F00B204E9800998ECF8427E",
      "Updated 1 hash(es)."], true, 1⟩ := by
  have hpp : processPieces w2.files (scanPieces t2doc.data) 0 [] =
      SubOutcome.done t2res.data 1
        ["  a: 00000000000000000000000000000000 -> D41D8CD98F00B204E9800998ECF8427E"] := by
    rw [scan_t2]
    simp only [processPieces, rm_mY, rm_mX]
    decide
  rw [mainRun_some w2 t2doc t2res.data 1 _ rfl hpp, if_pos (by decide)]
  rfl

theorem mainRun_w8 : mainRun w8 =
    ⟨false, ⟨some t8res, w8.files⟩,
     ["  a: 00000000000000000000000000000000 -> D41D8CD98F00B204E9800998ECF8427E",
      "  MISSING: nope", "Updated 1 hash(es)."], true, 1⟩ := by
  have hpp : processPieces w8.files (scanPieces t8doc.data) 0 [] =
      SubOutcome.done t8res.data 1
        ["  a: 00000000000000000000000000000000 -> D41D8CD98F00B204E9800998ECF8427E",
         "  MISSING: nope"] := by
    rw [scan_t8]
    simp only [processPieces, rm_mX8,
      rm_missing_gen w8.files mN 1
        ["  a: 00000000000000000000000000000000 -> D41D8CD98F00B204E9800998ECF8427E"]
        (by decide)]
    decide
  rw [mainRun_some w8 t8doc t8res.data 1 _ rfl hpp, if_pos (by decide)]
  rfl

/-! ## The claims -/

/-- Claim C3, counterexample: the entry `mY` of `w2`'s manifest references
an existing file and its recorded hash differs from the computed digest
only in letter case, yet in the document the run writes back the entry's
region (the first 64 characters) is rewritten: the hash is normalized to
uppercase.  `replace_match` returns the rebuilt region with the uppercase
`new_md5` even when the case-insensitive comparison succeeds, and the
rewrite reaches disk because the other (stale) entry forces a write. -/
theorem C3_cex :
    Piece.entry mY ∈ scanPieces t2doc.data ∧
    w2.files (String.mk mY.g4) = FileState.readable [97] ∧
    strUpper (String.mk mY.g2) = md5Upper [97] ∧
    String.mk mY.g2 ≠ md5Upper [97] ∧
    (mainRun w2).world.manifest = some t2res ∧
    t2res.data.take 64 ≠ mStr mY := by
  refine ⟨?_, by decide, ?_, ?_, by rw [mainRun_w2], by decide⟩
  · rw [scan_t2]; simp
  · rw [md5U_a]; decide
  · rw [md5U_a]; decide

/-- Claim C3, amended: an entry whose recorded hash equals the computed
digest up to case produces no log line and no counter increment, but its
region is rebuilt with the upper-cased digest in the hash field (all other
groups preserved); the region is byte-identical to the original only when
the recorded hash is already exactly the uppercase digest. -/
theorem C3_case_insensitive (files : String → FileState) (m : FileMatch)
    (u : Nat) (out : List String) (b : List Nat)
    (hb : files (String.mk m.g4) = .readable b)
    (hcase : strUpper (String.mk m.g2) = md5Upper b) :
    replaceMatch files m u out =
      some (m.g1 ++ (md5Upper b).data ++ m.g3 ++ m.g4 ++ m.g5, u, out) := by
  simp [replaceMatch, hb, hcase]

/-- Claim C3, witness: the case-only entry `mY` of `w2`. -/
theorem C3_case_insensitive_witness :
    w2.files (String.mk mY.g4) = FileState.readable [97] ∧
    strUpper (String.mk mY.g2) = md5Upper [97] ∧
    replaceMatch w2.files mY 0 [] =
      some (mY.g1 ++ (md5Upper [97]).data ++ mY.g3 ++ mY.g4 ++ mY.g5, 0, []) :=
  ⟨by decide, by rw [md5U_a]; decide,
   C3_case_insensitive w2.files mY 0 [] [97] (by decide) (by rw [md5U_a]; decide)⟩

/-- Claim C5: an entry whose resolved file does not exist is not fatal
(`replace_match` returns normally), one `  MISSING: <relative path>` line
is emitted, the entire region `mStr m` is returned byte-for-byte unchanged
(so the rewritten piece equals the original), and the updated counter is
left untouched. -/
theorem C5_missing (files : String → FileState) (m : FileMatch) (u : Nat)
    (out : List String) (hmiss : files (String.mk m.g4) = .missing) :
    replaceMatch files m u out =
      some (mStr m, u, out ++ ["  MISSING: " ++ String.mk m.g4]) ∧
    mapPiece files (Piece.entry m) = Piece.entry m ∧
    isUpd files (Piece.entry m) = false := by
  refine ⟨rm_missing_gen files m u out hmiss, ?_, ?_⟩ <;> simp [mapPiece, isUpd, hmiss]

/-- Claim C5, witness: the missing-file entry `mN` of `w8`. -/
theorem C5_missing_witness :
    w8.files (String.mk mN.g4) = FileState.missing ∧
    (replaceMatch w8.files mN 0 [] =
       some (mStr mN, 0, [] ++ ["  MISSING: " ++ String.mk mN.g4]) ∧
     mapPiece w8.files (Piece.entry mN) = Piece.entry mN ∧
     isUpd w8.files (Piece.entry mN) = false) :=
  ⟨by decide, C5_missing w8.files mN 0 [] (by decide)⟩

/-- Claim C4: in a run that does not abort, the manifest is written back
iff the final updated count is positive, and when nothing is written the
whole world (manifest file included) is untouched. -/
theorem C4_write_iff (w : World) (herr : (mainRun w).err = false) :
    ((mainRun w).wrote = true ↔ 0 < (mainRun w).updated) ∧
    ((mainRun w).wrote = false → (mainRun w).world = w) := by
  cases hman0 : w.manifest with
  | none =>
    rw [mainRun_none w hman0] at herr
    exact Bool.noConfusion herr
  | some t0 =>
    cases hpp : processPieces w.files (scanPieces t0.data) 0 [] with
    | fatal o =>
      rw [mainRun_fatal w t0 o hman0 hpp] at herr
      exact Bool.noConfusion herr
    | done T u out =>
      rw [mainRun_some w t0 T u out hman0 hpp]
      by_cases hz : u = 0
      · subst hz
        rw [if_neg (by decide)]
        exact ⟨by simp, fun _ => rfl⟩
      · rw [if_pos hz]
        refine ⟨by simp [Nat.pos_of_ne_zero hz], fun hw => absurd hw (by simp)⟩

/-- Claim C4, witness: the already-up-to-date world `w1`. -/
theorem C4_write_iff_witness :
    (mainRun w1).err = false ∧
    (((mainRun w1).wrote = true ↔ 0 < (mainRun w1).updated) ∧
     ((mainRun w1).wrote = false → (mainRun w1).world = w1)) :=
  ⟨by rw [mainRun_w1], C4_write_iff w1 (by rw [mainRun_w1])⟩

/-- Claim C6: if the manifest cannot be read, or some entry's referenced
file exists but its bytes cannot be read, the run aborts with an error,
nothing is written, and the world is left exactly as it was. -/
theorem C6_fatal (w : World)
    (h : w.manifest = none ∨ ∃ text m, w.manifest = some text ∧
      Piece.entry m ∈ scanPieces text.data ∧
      w.files (String.mk m.g4) = .unreadable) :
    (mainRun w).err = true ∧ (mainRun w).wrote = false ∧
    (mainRun w).world = w := by
  rcases h with hnone | ⟨text, m, hman, hm, hunr⟩
  · rw [mainRun_none w hnone]
    exact ⟨rfl, rfl, rfl⟩
  · cases hpp : processPieces w.files (scanPieces text.data) 0 [] with
    | fatal o =>
      rw [mainRun_fatal w text o hman hpp]
      exact ⟨rfl, rfl, rfl⟩
    | done T u out =>
      exact absurd hunr
        (processPieces_done_not_unreadable w.files _ 0 [] T u out hpp m hm)

/-- Claim C6, witness: the world `w6` whose manifest is unreadable. -/
theorem C6_fatal_witness :
    (w6.manifest = none ∨ ∃ text m, w6.manifest = some text ∧
      Piece.entry m ∈ scanPieces text.data ∧
      w6.files (String.mk m.g4) = FileState.unreadable) ∧
    ((mainRun w6).err = true ∧ (mainRun w6).wrote = false ∧
     (mainRun w6).world = w6) :=
  ⟨Or.inl rfl, C6_fatal w6 (Or.inl rfl)⟩

/-- Claim C9: every substring processed as a File Entry has the shape
`<File\s+md5="H" import="D">PATH</File>` with `H` exactly 32 hex digits,
`D` the digit 0 or 1, and `PATH` nonempty and newline-free (the `WF`
structure); everything else of the document is kept as raw characters that
render back byte-for-byte and contribute no log line, no rewrite and no
count increment. -/
theorem C9_shape (files : String → FileState) (l : List Char) :
    (∀ m, Piece.entry m ∈ scanPieces l → WF m) ∧
    renderP (scanPieces l) = l ∧
    ∀ c : Char, mapPiece files (Piece.raw c) = Piece.raw c ∧
      lineOf files (Piece.raw c) = none ∧ isUpd files (Piece.raw c) = false :=
  ⟨scan_entries_wf l, renderP_scan l, fun _ => ⟨rfl, rfl, rfl⟩⟩

/-- Claim C10: the run is deterministic — it is a function of the manifest
text and of the mapping from resolved paths to file contents, so two
worlds that agree on both produce the same stdout, the same count and the
same resulting manifest. -/
theorem C10_deterministic (w w' : World) (hman : w.manifest = w'.manifest)
    (hfiles : ∀ p, w.files p = w'.files p) :
    (mainRun w).stdout = (mainRun w').stdout ∧
    (mainRun w).updated = (mainRun w').updated ∧
    (mainRun w).world.manifest = (mainRun w').world.manifest := by
  have hww : w = w' := by
    cases w with
    | mk man fs =>
      cases w' with
      | mk man' fs' =>
        have h1 : man = man' := hman
        have h2 : fs = fs' := funext hfiles
        rw [h1, h2]
  rw [hww]
  exact ⟨rfl, rfl, rfl⟩

/-- Claim C10, witness: `w1` and `w1b` describe the same manifest and the
same directory contents through syntactically different file maps. -/
theorem C10_deterministic_witness :
    w1.manifest = w1b.manifest ∧ (∀ p, w1.files p = w1b.files p) ∧
    ((mainRun w1).stdout = (mainRun w1b).stdout ∧
     (mainRun w1).updated = (mainRun w1b).updated ∧
     (mainRun w1).world.manifest = (mainRun w1b).world.manifest) := by
  have hf : ∀ p, w1.files p = w1b.files p := by
    intro p
    show (if p = "a" then FileState.readable [] else .missing) =
      (if p = "b" then .missing else if p = "a" then FileState.readable [] else .missing)
    by_cases hb : p = "b"
    · subst hb
      rw [if_pos rfl, if_neg (by decide)]
    · rw [if_neg hb]
  exact ⟨rfl, hf, C10_deterministic w1 w1b rfl hf⟩

/-- Claim C1: after a run that does not abort, every File Entry of the
resulting manifest document whose referenced file exists (is readable with
bytes `b`) records, up to case, exactly the uppercase MD5 of `b`. -/
theorem C1_exactness (w : World) (text : String) (m : FileMatch) (b : List Nat)
    (herr : (mainRun w).err = false)
    (hman : (mainRun w).world.manifest = some text)
    (hm : Piece.entry m ∈ scanPieces text.data)
    (hb : w.files (String.mk m.g4) = .readable b) :
    strUpper (String.mk m.g2) = md5Upper b := by
  cases hman0 : w.manifest with
  | none =>
    rw [mainRun_none w hman0] at herr
    exact Bool.noConfusion herr
  | some t0 =>
    cases hpp : processPieces w.files (scanPieces t0.data) 0 [] with
    | fatal o =>
      rw [mainRun_fatal w t0 o hman0 hpp] at herr
      exact Bool.noConfusion herr
    | done T u out =>
      obtain ⟨hT, hu, ho⟩ := processPieces_done w.files _ 0 [] T u out hpp
      rw [mainRun_some w t0 T u out hman0 hpp] at hman
      by_cases hz : u = 0
      · rw [if_neg (not_ne_iff.mpr hz)] at hman
        have hman' : w.manifest = some text := hman
        rw [hman0] at hman'
        injection hman' with htext
        subst htext
        have hz2 : updCount w.files (scanPieces t0.data) = 0 := by omega
        exact updCount_zero w.files _ hz2 m hm b hb
      · rw [if_pos hz] at hman
        have hman' : some (String.mk T) = some text := hman
        injection hman' with htext
        subst htext
        rw [show (String.mk T).data = T from rfl, hT,
          scan_mapPieces w.files t0.data] at hm
        obtain ⟨m0, hm0, hmap⟩ := mem_mapPieces w.files _ m hm
        cases hfs : w.files (String.mk m0.g4) with
        | readable b0 =>
          rw [show mapPiece w.files (Piece.entry m0) =
              Piece.entry ⟨m0.g1, (md5Upper b0).data, m0.g3, m0.g4, m0.g5⟩ by
            simp only [mapPiece, hfs]] at hmap
          injection hmap with hme
          subst hme
          have hb' : w.files (String.mk m0.g4) = FileState.readable b := hb
          rw [hfs] at hb'
          injection hb' with hbb
          subst hbb
          exact strUpper_md5Upper b0
        | missing =>
          rw [show mapPiece w.files (Piece.entry m0) = Piece.entry m0 by
            simp only [mapPiece, hfs]] at hmap
          injection hmap with hme
          subst hme
          rw [hfs] at hb
          exact FileState.noConfusion hb
        | unreadable =>
          rw [show mapPiece w.files (Piece.entry m0) = Piece.entry m0 by
            simp only [mapPiece, hfs]] at hmap
          injection hmap with hme
          subst hme
          rw [hfs] at hb
          exact FileState.noConfusion hb

/-- Claim C1, witness: the already-correct entry `m1` of `w1`. -/
theorem C1_exactness_witness :
    (mainRun w1).err = false ∧ (mainRun w1).world.manifest = some t1doc ∧
    Piece.entry m1 ∈ scanPieces t1doc.data ∧
    w1.files (String.mk m1.g4) = FileState.readable [] ∧
    strUpper (String.mk m1.g2) = md5Upper [] :=
  ⟨by rw [mainRun_w1], by rw [mainRun_w1]; rfl, by rw [scan_t1]; simp, by decide,
   C1_exactness w1 t1doc m1 [] (by rw [mainRun_w1]) (by rw [mainRun_w1]; rfl)
     (by rw [scan_t1]; simp) (by decide)⟩

/-- Claim C2, counterexample: the run on `w2` rewrites the manifest, and
the region of the entry `mY` — whose recorded hash matched the computed
digest case-insensitively, so its hash did not "actually change" — is not
byte-identical afterwards: the first 64 characters of the document (that
entry) had their hash normalized to uppercase. -/
theorem C2_cex :
    w2.manifest = some t2doc ∧
    Piece.entry mY ∈ scanPieces t2doc.data ∧
    strUpper (String.mk mY.g2) = md5Upper [97] ∧
    w2.files (String.mk mY.g4) = FileState.readable [97] ∧
    (mainRun w2).wrote = true ∧
    (mainRun w2).world.manifest = some t2res ∧
    t2res.data.take 64 ≠ t2doc.data.take 64 := by
  refine ⟨rfl, ?_, ?_, by decide, by rw [mainRun_w2], by rw [mainRun_w2], by decide⟩
  · rw [scan_t2]; simp
  · rw [md5U_a]; decide

/-- Claim C2, amended: in a run that rewrites the manifest the new
document is exactly the rendering of the piece-wise rewrite: unmatched
characters and, for every entry, all groups but the 32-character hash
group are preserved byte-for-byte (the `PieceRel` relation), while the
hash group of every entry whose file is readable — including entries whose
recorded hash matched only up to case — holds the upper-case digest. -/
theorem C2_preservation (w : World) (text : String)
    (hman : w.manifest = some text) (hw : (mainRun w).wrote = true) :
    List.Forall₂ PieceRel (scanPieces text.data)
      (mapPieces w.files (scanPieces text.data)) ∧
    (mainRun w).world.manifest =
      some (String.mk (renderP (mapPieces w.files (scanPieces text.data)))) := by
  refine ⟨forall2_pieceRel_mapPieces w.files _ (scan_entries_wf text.data), ?_⟩
  cases hpp : processPieces w.files (scanPieces text.data) 0 [] with
  | fatal o =>
    rw [mainRun_fatal w text o hman hpp] at hw
    exact Bool.noConfusion hw
  | done T u out =>
    obtain ⟨hT, hu, ho⟩ := processPieces_done w.files _ 0 [] T u out hpp
    rw [mainRun_some w text T u out hman hpp]
    by_cases hz : u = 0
    · rw [mainRun_some w text T u out hman hpp, if_neg (not_ne_iff.mpr hz)] at hw
      exact Bool.noConfusion hw
    · rw [if_pos hz]
      rw [hT]

/-- Claim C2, witness: the world `w2`, whose run writes the manifest. -/
theorem C2_preservation_witness :
    w2.manifest = some t2doc ∧ (mainRun w2).wrote = true ∧
    (List.Forall₂ PieceRel (scanPieces t2doc.data)
       (mapPieces w2.files (scanPieces t2doc.data)) ∧
     (mainRun w2).world.manifest =
       some (String.mk (renderP (mapPieces w2.files (scanPieces t2doc.data))))) :=
  ⟨rfl, by rw [mainRun_w2], C2_preservation w2 t2doc rfl (by rw [mainRun_w2])⟩

/-- Claim C8: a non-aborting run prints exactly the per-entry lines, in
document order — `  MISSING: <path>` for each missing entry and
`  <path>: <OLD> -> <NEW>` for each updated entry, nothing for the others
(`linesOf`) — followed by exactly one summary line: `Updated <N> hash(es).`
when the count `N` is positive, `All hashes up to date.` otherwise. -/
theorem C8_stdout (w : World) (text : String) (hman : w.manifest = some text)
    (herr : (mainRun w).err = false) :
    (mainRun w).stdout =
      linesOf w.files (scanPieces text.data) ++
      [if (mainRun w).updated ≠ 0 then
         "Updated " ++ toString (mainRun w).updated ++ " hash(es)."
       else "All hashes up to date."] := by
  cases hpp : processPieces w.files (scanPieces text.data) 0 [] with
  | fatal o =>
    rw [mainRun_fatal w text o hman hpp] at herr
    exact Bool.noConfusion herr
  | done T u out =>
    obtain ⟨hT, hu, ho⟩ := processPieces_done w.files _ 0 [] T u out hpp
    rw [mainRun_some w text T u out hman hpp]
    by_cases hz : u = 0
    · subst hz
      rw [if_neg (by decide)]
      dsimp only
      rw [if_neg (by decide), ho]
      simp
    · rw [if_pos hz]
      dsimp only
      rw [if_pos hz, ho]
      simp

/-- Claim C8, witness: the world `w8` with one updated and one missing
entry. -/
theorem C8_stdout_witness :
    w8.manifest = some t8doc ∧ (mainRun w8).err = false ∧
    (mainRun w8).stdout =
      linesOf w8.files (scanPieces t8doc.data) ++
      [if (mainRun w8).updated ≠ 0 then
         "Updated " ++ toString (mainRun w8).updated ++ " hash(es)."
       else "All hashes up to date."] :=
  ⟨rfl, by rw [mainRun_w8], C8_stdout w8 t8doc rfl (by rw [mainRun_w8])⟩

/-- Claim C7: re-running the synchronizer on the world a non-aborting run
leaves behind (same directory tree, the possibly rewritten manifest)
aborts nothing, updates zero entries, writes nothing, leaves the world
unchanged and ends its output with `All hashes up to date.`. -/
theorem C7_idempotent (w : World) (herr : (mainRun w).err = false) :
    (mainRun ((mainRun w).world)).err = false ∧
    (mainRun ((mainRun w).world)).updated = 0 ∧
    (mainRun ((mainRun w).world)).wrote = false ∧
    (mainRun ((mainRun w).world)).world = (mainRun w).world ∧
    ∃ lines, (mainRun ((mainRun w).world)).stdout =
      lines ++ ["All hashes up to date."] := by
  cases hman0 : w.manifest with
  | none =>
    rw [mainRun_none w hman0] at herr
    exact Bool.noConfusion herr
  | some t0 =>
    cases hpp : processPieces w.files (scanPieces t0.data) 0 [] with
    | fatal o =>
      rw [mainRun_fatal w t0 o hman0 hpp] at herr
      exact Bool.noConfusion herr
    | done T u out =>
      obtain ⟨hT, hu, ho⟩ := processPieces_done w.files _ 0 [] T u out hpp
      have hnu := processPieces_done_not_unreadable w.files _ 0 [] T u out hpp
      rw [mainRun_some w t0 T u out hman0 hpp]
      by_cases hz : u = 0
      · subst hz
        rw [if_neg (by decide)]
        dsimp only
        rw [mainRun_some w t0 T 0 out hman0 hpp, if_neg (by decide)]
        exact ⟨rfl, rfl, rfl, rfl, out, rfl⟩
      · rw [if_pos hz]
        dsimp only
        have hscan : scanPieces (String.mk T).data =
            mapPieces w.files (scanPieces t0.data) := by
          rw [show (String.mk T).data = T from rfl, hT]
          exact scan_mapPieces w.files t0.data
        have hnu' := mapPieces_not_unreadable w.files (scanPieces t0.data) hnu
        obtain ⟨T2, u2, o2, hpp2⟩ := processPieces_total w.files
          (mapPieces w.files (scanPieces t0.data)) 0 [] hnu'
        obtain ⟨hT2, hu2, ho2⟩ := processPieces_done w.files _ 0 [] T2 u2 o2 hpp2
        have hu2z : u2 = 0 := by
          rw [hu2, updCount_mapPieces]
        have hpp2' : processPieces w.files (scanPieces (String.mk T).data) 0 [] =
            SubOutcome.done T2 u2 o2 := by
          rw [hscan]; exact hpp2
        rw [mainRun_some ⟨some (String.mk T), w.files⟩ (String.mk T) T2 u2 o2
          rfl hpp2', if_neg (not_ne_iff.mpr hu2z)]
        exact ⟨rfl, rfl, rfl, rfl, o2, rfl⟩

/-- Claim C7, witness: the second run after the rewriting run on `w2`. -/
theorem C7_idempotent_witness :
    (mainRun w2).err = false ∧
    ((mainRun ((mainRun w2).world)).err = false ∧
     (mainRun ((mainRun w2).world)).updated = 0 ∧
     (mainRun ((mainRun w2).world)).wrote = false ∧
     (mainRun ((mainRun w2).world)).world = (mainRun w2).world ∧
     ∃ lines, (mainRun ((mainRun w2).world)).stdout =
       lines ++ ["All hashes up to date."]) :=
  ⟨by rw [mainRun_w2], C7_idempotent w2 (by rw [mainRun_w2])⟩
